import Mathlib

/-!
# Verification of the opr8 DOM core (andaru/opr8)

A shallow embedding, in Lean 4, of the opr8 repository's DOM node store
(`dom` package: node kinds, the circular-tail sibling list and its four child
mutation operations), the character-data operations on Text/Comment nodes, the
streaming `Builder` token decoder, the JSON-to-token bridge (`JSONDecoder`),
the tree-order `Marshaler`, and the YANG schema-guided `datastore.Decoder`.

Conventions used throughout:

* Go strings and `[]byte` holding UTF-8 text are modelled as `List Char`
  (one entry per rune) except where the byte-level length is semantically
  relevant (the CharacterData operations, which use Go `len` on `[]byte`);
  there the data is a `List Nat` of bytes.
* Go `nil` pointers are `Option.none`; a Go nil-pointer dereference (panic)
  is modelled by an `Option`-valued operation returning `none` (or by the
  `GoResult.panic` constructor).
* The pointer-linked node store is modelled as an explicit heap: a list of
  node records indexed by allocation order, with pointer fields holding
  `Option Nat` node ids.  Go pointer equality becomes id equality.
-/

set_option maxHeartbeats 1000000

namespace Opr8

/-- Strings (Go `string` / UTF-8 `[]byte`) as lists of runes. -/
abbrev Str := List Char

/-- Model of `dom.NodeType` (nodetype.go): the code for the underlying object's type.
The Go declaration is an `int8` iota enumeration; we keep all constructors,
including the historical/unused ones, in declaration order. -/
inductive NodeType where
  | null
  | element
  | attribute
  | text
  | cdataSection
  | entityReference
  | entity
  | processingInstruction
  | comment
  | document
  | documentType
  | documentFragment
  | notationNode
  | declaration
  deriving DecidableEq, Repr, Inhabited, Fintype

/-- Model of `dom.allowInsertChild(parent, child NodeType) bool`: the structural
validity function for child insertion.  Direct translation of the Go chain of
`if`/`else if` tests (the Go source also compares `child == 0`, which is the
same value as `NodeTypeNull`; we keep the redundant test). -/
def allowInsertChild (parent child : NodeType) : Bool :=
  if parent = .null ∨ child = .null then false
  else if parent ≠ .document ∧ parent ≠ .element then false
  else if child = .document ∨ child = .null then false
  else if parent ≠ .document ∧ (child = .documentType ∨ child = .declaration) then false
  else true

/-- Model of `dom.allowInsertAttribute(parent NodeType) bool`. -/
def allowInsertAttribute (parent : NodeType) : Bool :=
  parent = .element || parent = .declaration

/-- The `dom` package error values (errors.go) that the embedded operations
can produce.  `errors.Wrapf(ErrHierarchyRequest, ...)` keeps
`ErrHierarchyRequest` as its cause, so we identify wrapped hierarchy errors
with `.hierarchyRequest`. -/
inductive DomErr where
  | hierarchyRequest
  | indexSize
  deriving DecidableEq, Repr

/-- Outcome of a Go method call: a runtime panic (nil dereference / slice
bounds), a returned error value, or a normal result.  For stateful methods
`α` is the post-call state; in the `err` case Go returns before mutating, so
the carried state equals the pre-call state. -/
inductive GoResult (α : Type) where
  | panic
  | err (e : DomErr) (a : α)
  | ok (a : α)
  deriving DecidableEq, Repr

/-- Model of `flexml.Name`: a namespace-qualified XML name (`Space`, `Local`). -/
structure XName where
  space : Str
  loc : Str
  deriving DecidableEq, Repr, Inhabited

/-- Model of `flexml.Attr`: an XML attribute (name and value). -/
structure XAttr where
  name : XName
  value : Str
  deriving DecidableEq, Repr, Inhabited

/-- Model of `dom.xmlnsDefault = xml.Name{Local: "xmlns"}` (marshaler.go). -/
def xmlnsDefault : XName := ⟨[], "xmlns".data⟩

/-! ## The node store heap

The Go `node` struct (`type node struct { parent, firstChild, nextSib,
prevSib, firstAttr *node; value nodeTyper }`) is a pointer-linked record.  We
model the store as an explicit heap: a list of node records indexed by
allocation order.  The `value` field's dynamic type is captured by `kind`
(what `nodeType()` returns) together with the payload data actually read by
the embedded operations (the element/attribute name, the text/comment
character data, the attribute value). -/

/-- One Go `node` record plus the payload carried by its `value` field. -/
structure NodeRec where
  parent : Option Nat := none
  firstChild : Option Nat := none
  nextSib : Option Nat := none
  prevSib : Option Nat := none
  firstAttr : Option Nat := none
  kind : NodeType := .null
  name : XName := default
  data : Str := []
  attrValue : Str := []
  deriving DecidableEq, Repr, Inhabited

/-- The node heap: node id `i` is the record at index `i`. -/
abbrev Heap := List NodeRec

/-- Read a node record (out-of-range reads return the zero record, which has
`kind = .null`; all embedded operations are applied to in-range ids). -/
def hget (h : Heap) (i : Nat) : NodeRec := h.getD i default

/-- Update the record of node `i` (out of range: heap unchanged). -/
def hmod (h : Heap) (i : Nat) (f : NodeRec → NodeRec) : Heap :=
  h.set i (f (hget h i))

/-- Allocate a fresh node, returning the heap and the new node's id. -/
def halloc (h : Heap) (r : NodeRec) : Heap × Nat := (h ++ [r], h.length)

/-- Model of `n.NodeType()`: the Go method returns `NodeTypeNull` when `value` is nil;
in the embedding the `kind` field already holds that result. -/
def nkind (h : Heap) (i : Nat) : NodeType := (hget h i).kind

/-! ### Sibling-list mutation primitives (node.go)

Each primitive performs the same pointer assignments in the same order as the
Go function.  A Go nil-pointer dereference yields `none`. -/

/-- Model of `appendNode(child, parent *node)`. -/
def appendNode (h : Heap) (child parent : Nat) : Option Heap :=
  let h1 := hmod h child (fun r => { r with parent := some parent })
  match (hget h1 parent).firstChild with
  | some head =>
    match (hget h1 head).prevSib with
    | some tail =>
      let h2 := hmod h1 tail (fun r => { r with nextSib := some child })
      let h3 := hmod h2 child (fun r => { r with prevSib := some tail })
      some (hmod h3 head (fun r => { r with prevSib := some child }))
    | none => none
  | none =>
    let h2 := hmod h1 parent (fun r => { r with firstChild := some child })
    some (hmod h2 child (fun r => { r with prevSib := some child }))

/-- Model of `prependNode(child, parent *node)` (reads `head.prevSib` only as a value,
so it cannot panic). -/
def prependNode (h : Heap) (child parent : Nat) : Heap :=
  let h1 := hmod h child (fun r => { r with parent := some parent })
  let head := (hget h1 parent).firstChild
  let h2 :=
    match head with
    | some hd =>
      let h2a := hmod h1 child (fun r => { r with prevSib := (hget h1 hd).prevSib })
      hmod h2a hd (fun r => { r with prevSib := some child })
    | none => hmod h1 child (fun r => { r with prevSib := some child })
  let h3 := hmod h2 child (fun r => { r with nextSib := head })
  hmod h3 parent (fun r => { r with firstChild := some child })

/-- Model of `insertNodeBefore(child, before *node)`.  Note two faithful quirks of the
Go source: the assignment `child.parent = before` stores the *reference* node
(not `before.parent`) in the child's parent link, and the guard tests
`before.prevSib != nil` (not whether `before` is the list head). -/
def insertNodeBefore (h : Heap) (child before : Nat) : Option Heap :=
  let parentOpt := (hget h before).parent
  let h1 := hmod h child (fun r => { r with parent := some before })
  let step2 : Option Heap :=
    match (hget h1 before).prevSib with
    | some bp => some (hmod h1 bp (fun r => { r with nextSib := some child }))
    | none =>
      match parentOpt with
      | none => none
      | some par =>
        match (hget h1 par).firstChild with
        | none => none
        | some fc => some (hmod h1 fc (fun r => { r with prevSib := some child }))
  match step2 with
  | none => none
  | some h2 =>
    let h3 := hmod h2 child (fun r => { r with prevSib := (hget h2 before).prevSib })
    let h4 := hmod h3 child (fun r => { r with nextSib := some before })
    some (hmod h4 before (fun r => { r with prevSib := some child }))

/-- Model of `insertNodeAfter(child, after *node)`. -/
def insertNodeAfter (h : Heap) (child after : Nat) : Option Heap :=
  let parentOpt := (hget h after).parent
  let h1 := hmod h child (fun r => { r with parent := parentOpt })
  let step2 : Option Heap :=
    match (hget h1 after).nextSib with
    | some nxt => some (hmod h1 nxt (fun r => { r with prevSib := some child }))
    | none =>
      match parentOpt with
      | none => none
      | some par =>
        match (hget h1 par).firstChild with
        | none => none
        | some fc => some (hmod h1 fc (fun r => { r with prevSib := some child }))
  match step2 with
  | none => none
  | some h2 =>
    let h3 := hmod h2 child (fun r => { r with nextSib := (hget h2 after).nextSib })
    let h4 := hmod h3 child (fun r => { r with prevSib := some after })
    some (hmod h4 after (fun r => { r with nextSib := some child }))

/-! ### Public child mutation operations (node.go)

Each checks `allowInsertChildErr` first and returns the wrapped
`ErrHierarchyRequest` without mutating on failure. -/

/-- Model of `(n *node).AppendChild(child Node) error`. -/
def nAppendChild (h : Heap) (n child : Nat) : GoResult Heap :=
  if allowInsertChild (nkind h n) (nkind h child) = false then .err .hierarchyRequest h
  else
    match appendNode h child n with
    | none => .panic
    | some h' => .ok h'

/-- Model of `(n *node).PrependChild(child Node) error`. -/
def nPrependChild (h : Heap) (n child : Nat) : GoResult Heap :=
  if allowInsertChild (nkind h n) (nkind h child) = false then .err .hierarchyRequest h
  else .ok (prependNode h child n)

/-- Model of `(n *node).InsertChildAfter(child, after Node) error`; a nil `after`
degrades to an append, a non-child `after` is `ErrHierarchyRequest`. -/
def nInsertChildAfter (h : Heap) (n child : Nat) (after : Option Nat) : GoResult Heap :=
  if allowInsertChild (nkind h n) (nkind h child) = false then .err .hierarchyRequest h
  else
    match after with
    | none =>
      match appendNode h child n with
      | none => .panic
      | some h' => .ok h'
    | some a =>
      if (hget h a).parent ≠ some n then .err .hierarchyRequest h
      else
        match insertNodeAfter h child a with
        | none => .panic
        | some h' => .ok h'

/-- Model of `(n *node).InsertChildBefore(child, before Node) error`; a nil `before`
degrades to a prepend, a non-child `before` is `ErrHierarchyRequest`. -/
def nInsertChildBefore (h : Heap) (n child : Nat) (before : Option Nat) : GoResult Heap :=
  if allowInsertChild (nkind h n) (nkind h child) = false then .err .hierarchyRequest h
  else
    match before with
    | none => .ok (prependNode h child n)
    | some b =>
      if (hget h b).parent ≠ some n then .err .hierarchyRequest h
      else
        match insertNodeBefore h child b with
        | none => .panic
        | some h' => .ok h'

/-- Model of `(n *node).PreviousSibling() Node`: returns `n.prevSib` when
`n.prevSib.nextSib != nil` and nil otherwise.  The receiver's `prevSib` link
is dereferenced unconditionally, so a node whose `prevSib` is nil (a freshly
created, never-inserted node) panics: outer `none`.  `some v` is a normal
return with value `v` (`some id` a node, `none` Go nil). -/
def previousSibling (h : Heap) (i : Nat) : Option (Option Nat) :=
  match (hget h i).prevSib with
  | none => none
  | some pv => some (if (hget h pv).nextSib ≠ none then some pv else none)

/-- Model of `(n *node).NextSibling() Node`. -/
def nextSibling (h : Heap) (i : Nat) : Option Nat := (hget h i).nextSib

/-- Model of `(n *node).FirstChild() Node`. -/
def firstChildOf (h : Heap) (i : Nat) : Option Nat := (hget h i).firstChild

/-- Model of `(n *node).LastChild() Node`: `n.firstChild.prevSib` when non-empty.
Result `none` models both the empty case (returns nil) and never panics in
Go only because the head's `prevSib` is read as a value. -/
def lastChildOf (h : Heap) (i : Nat) : Option Nat :=
  match (hget h i).firstChild with
  | none => none
  | some fc => (hget h fc).prevSib

/-! ### Node factories -/

/-- Model of `appendAttribute(attr, parent *node)` (does not set the attribute's
parent link). -/
def appendAttribute (h : Heap) (attr parent : Nat) : Option Heap :=
  match (hget h parent).firstAttr with
  | some head =>
    match (hget h head).prevSib with
    | some tail =>
      let h2 := hmod h tail (fun r => { r with nextSib := some attr })
      let h3 := hmod h2 attr (fun r => { r with prevSib := some tail })
      some (hmod h3 head (fun r => { r with prevSib := some attr }))
    | none => none
  | none =>
    let h2 := hmod h parent (fun r => { r with firstAttr := some attr })
    some (hmod h2 attr (fun r => { r with prevSib := some attr }))

/-- The record allocated for an attribute node. -/
def attrRec (a : XAttr) : NodeRec :=
  { kind := .attribute, name := a.name, attrValue := a.value }

/-- Model of `newAttribute(a xml.Attr) *node`. -/
def newAttribute (h : Heap) (a : XAttr) : Heap × Nat :=
  halloc h (attrRec a)

/-- One iteration of the attribute loop in `newStartElement`: allocate the
attribute node and append it to element `id`'s attribute list (appending to
an element always succeeds; the `getD` fallback is never taken there). -/
def nseStep (id : Nat) (acc : Heap) (a : XAttr) : Heap :=
  let (ha, aid) := newAttribute acc a
  (appendAttribute ha aid id).getD ha

/-- Model of `newStartElement(elem xml.StartElement) *node` (attr.go): a fresh element
node with each token attribute appended to its attribute list. -/
def newStartElement (h : Heap) (n : XName) (attrs : List XAttr) : Heap × Nat :=
  let (h1, id) := halloc h { kind := .element, name := n }
  (attrs.foldl (nseStep id) h1, id)

/-- Model of `newText(cd xml.CharData) *node`. -/
def newText (h : Heap) (d : Str) : Heap × Nat :=
  halloc h { kind := .text, data := d }

/-- Here `newDocument(ctx)` allocated by `NewDocument`. -/
def newDocument (h : Heap) : Heap × Nat :=
  halloc h { kind := .document }

/-! ## Basic heap lemmas -/

theorem hmod_length (h : Heap) (i : Nat) (f : NodeRec → NodeRec) :
    (hmod h i f).length = h.length := by
  simp [hmod]

theorem hget_hmod_same (h : Heap) (i : Nat) (f : NodeRec → NodeRec)
    (hi : i < h.length) : hget (hmod h i f) i = f (hget h i) := by
  simp [hget, hmod, List.getD_eq_getElem?_getD, List.getElem?_set_eq_of_lt _ hi]

theorem hget_hmod_other (h : Heap) (i j : Nat) (f : NodeRec → NodeRec)
    (hij : j ≠ i) : hget (hmod h i f) j = hget h j := by
  simp [hget, hmod, List.getD_eq_getElem?_getD, List.getElem?_set_ne (Ne.symm hij)]

theorem hget_append_lt (h : Heap) (r : NodeRec) (i : Nat) (hi : i < h.length) :
    hget (h ++ [r]) i = hget h i := by
  simp [hget, List.getD_eq_getElem?_getD, List.getElem?_append_left hi]

/-! ## Claim C2: structural validity of child insertion -/

/-- Claim C2. For every pair of parent and child node kinds, the child mutation
operations are permitted exactly when neither kind is null, the parent kind is
Document or Element, the child kind is not Document, and a DocumentType or
Declaration child has a Document parent; every violating kind combination makes
all four child mutation operations fail with the hierarchy error, and a
permitted kind combination never produces a hierarchy error from
append/prepend. -/
theorem claim_C2_insert_validity :
    (∀ p c : NodeType,
      allowInsertChild p c = true ↔
        (p ≠ .null ∧ c ≠ .null ∧ (p = .document ∨ p = .element) ∧ c ≠ .document ∧
          ((c = .documentType ∨ c = .declaration) → p = .document))) ∧
    (∀ (h : Heap) (n c : Nat) (r : Option Nat),
      allowInsertChild (nkind h n) (nkind h c) = false →
        nAppendChild h n c = .err .hierarchyRequest h ∧
        nPrependChild h n c = .err .hierarchyRequest h ∧
        nInsertChildAfter h n c r = .err .hierarchyRequest h ∧
        nInsertChildBefore h n c r = .err .hierarchyRequest h) ∧
    (∀ (h : Heap) (n c : Nat),
      allowInsertChild (nkind h n) (nkind h c) = true →
        (∀ e h', nAppendChild h n c ≠ .err e h') ∧
        (∀ e h', nPrependChild h n c ≠ .err e h')) := by
  refine ⟨by decide, ?_, ?_⟩
  · intro h n c r hbad
    refine ⟨?_, ?_, ?_, ?_⟩ <;> simp [nAppendChild, nPrependChild,
      nInsertChildAfter, nInsertChildBefore, hbad]
  · intro h n c hok
    refine ⟨fun e h' hcon => ?_, fun e h' hcon => ?_⟩
    · simp only [nAppendChild, hok] at hcon
      cases hv : appendNode h c n <;> simp [hv] at hcon
    · simp [nPrependChild, hok] at hcon

/-- Scenario for the C2 witness: a heap whose node 0 is a Text node and whose
node 1 is an Element node (appending an Element to a Text parent is invalid;
a Document parent with an Element child is valid). -/
def hC2 : Heap := [{ kind := .text, data := "t".data }, { kind := .element }]

theorem claim_C2_insert_validity_witness :
    nAppendChild hC2 0 1 = .err .hierarchyRequest hC2 ∧
    allowInsertChild .document .element = true :=
  ⟨(claim_C2_insert_validity.2.1 hC2 0 1 none (by decide)).1,
   (claim_C2_insert_validity.1 .document .element).2 (by decide)⟩

/-! ## Claim C5: insertion failure is a transactional no-op -/

/-- Claim C5. Every structurally invalid insertion (invalid parent/child kind
combination, e.g. appending an Element child to a Text node) returns the
hierarchy error and leaves every node's structural links (parent, firstChild,
nextSib, prevSib) exactly as before: the kind check precedes any pointer
assignment, so the pre-call heap is returned untouched. -/
theorem claim_C5_invalid_insert_noop :
    ∀ (h : Heap) (n c : Nat) (r : Option Nat),
      allowInsertChild (nkind h n) (nkind h c) = false →
        (∃ h', nAppendChild h n c = .err .hierarchyRequest h' ∧
          ∀ j, hget h' j = hget h j) ∧
        (∃ h', nPrependChild h n c = .err .hierarchyRequest h' ∧
          ∀ j, hget h' j = hget h j) ∧
        (∃ h', nInsertChildAfter h n c r = .err .hierarchyRequest h' ∧
          ∀ j, hget h' j = hget h j) ∧
        (∃ h', nInsertChildBefore h n c r = .err .hierarchyRequest h' ∧
          ∀ j, hget h' j = hget h j) := by
  intro h n c r hbad
  refine ⟨⟨h, ?_, fun _ => rfl⟩, ⟨h, ?_, fun _ => rfl⟩,
    ⟨h, ?_, fun _ => rfl⟩, ⟨h, ?_, fun _ => rfl⟩⟩ <;>
    simp [nAppendChild, nPrependChild, nInsertChildAfter, nInsertChildBefore, hbad]

/-! ## Claim C3: the circular-tail sibling-list invariant

The invariant is violated by `insertNodeBefore` (node.go): the function
assigns `child.parent = before` (the reference node, not the list's parent),
and because a linked node's `prevSib` is never nil, the `before.prevSib !=
nil` guard always takes the first branch, linking `before.prevSib.nextSib =
child` even when `before` is the head (whose `prevSib` is the tail), and
never updating `parent.firstChild`.  The failing run below evaluates the
public `InsertChildBefore` on a document with one element child. -/

/-- C3 scenario: a document node 0 with one element child 1 (built with the
embedded factories and `AppendChild`), plus a fresh element node 2. -/
def hC3pre : Heap :=
  let h0 := (newDocument []).1
  let h1 := (newStartElement h0 ⟨[], "e".data⟩ []).1
  let h2 := match nAppendChild h1 0 1 with | .ok h => h | _ => []
  (newStartElement h2 ⟨[], "c".data⟩ []).1

/-- The heap after `InsertChildBefore(node 2, before node 1)` on the document. -/
def hC3post : Heap :=
  match nInsertChildBefore hC3pre 0 2 (some 1) with | .ok h => h | _ => []

/-- Claim C3 (failing run). `InsertChildBefore(c, e)` on a document whose only
child is `e` succeeds, but afterwards the inserted node's parent link holds
the reference node `e` (not the document), the document's `firstChild` still
points at `e`, and the next-sibling links form the cycle `e → c → e`; hence
the claimed invariant (head reachable by `prevSib` steps, tail's `nextSib`
absent, every child's parent link set to the mutated parent) is violated by
an `insert-child-before` operation. -/
theorem claim_C3_insert_before_breaks_invariant :
    nInsertChildBefore hC3pre 0 2 (some 1) = .ok hC3post ∧
    (hget hC3post 2).parent = some 1 ∧
    (hget hC3post 2).parent ≠ some 0 ∧
    (hget hC3post 0).firstChild = some 1 ∧
    (hget hC3post 1).nextSib = some 2 ∧
    (hget hC3post 2).nextSib = some 1 := by
  refine ⟨by decide, by decide, by decide, by decide, by decide, by decide⟩

/-! ## Claim C4: move validity and acyclicity

`allowMove` (node.go) exists but is called from nowhere: none of the four
child mutation operations consults it, so relocating a node into its own
descendant succeeds and creates a parent cycle. -/

/-- C4 scenario: document 0 with element child 1 (`a`), which has element
child 2 (`b`). -/
def hC4 : Heap :=
  let h0 := (newDocument []).1
  let h1 := (newStartElement h0 ⟨[], "a".data⟩ []).1
  let h2 := match nAppendChild h1 0 1 with | .ok h => h | _ => []
  let h3 := (newStartElement h2 ⟨[], "b".data⟩ []).1
  match nAppendChild h3 1 2 with | .ok h => h | _ => []

/-- The heap after `b.AppendChild(a)`, i.e. appending node 1 under its own
descendant node 2. -/
def hC4post : Heap :=
  match nAppendChild hC4 2 1 with | .ok h => h | _ => []

/-- Claim C4 (counterexample). Appending node `a` under its own descendant `b`
is *not* rejected: `AppendChild` succeeds (no `allowMove` check is performed
by any mutation operation) and afterwards `a.parent = b` and `b.parent = a`,
a cycle in the parent/ownership graph — refuting both the "permitted only
when the destination is not a descendant" condition and the claimed
acyclicity after every mutation. -/
theorem claim_C4_move_counterexample :
    nAppendChild hC4 2 1 = .ok hC4post ∧
    (hget hC4post 1).parent = some 2 ∧
    (hget hC4post 2).parent = some 1 := by
  refine ⟨by decide, by decide, by decide⟩

/-- The Go `OwnerDocument` walks parent links testing the type assertion
`it.value.(Document)`.  The dynamic types ever stored in `node.value`
(`*document`, `*element`, `*text`, `*comment`, `*attribute`, `*procinst`,
`*declaration`, `*documentFragment`) implement only `nodeType()` plus payload
methods; none implements the full `dom.Document` interface (which embeds
`Node`), so the assertion never succeeds, for any record. -/
def valueIsDocument (_ : NodeRec) : Bool := false

/-- The `for it := start; it != nil; it = it.parent` loop of
`(n *node).OwnerDocument()`, from a given start link, with fuel bounding the
walk (`none` = the Go loop does not terminate within the fuel). -/
def ownerDocumentFrom (h : Heap) : Nat → Option Nat → Option (Option Nat)
  | _, none => some none
  | 0, some _ => none
  | fuel + 1, some it =>
    if valueIsDocument (hget h it) then some (some it)
    else ownerDocumentFrom h fuel (hget h it).parent

/-- Here `(n *node).OwnerDocument()` starting from `n.parent`. -/
def ownerDocument (h : Heap) (fuel i : Nat) : Option (Option Nat) :=
  ownerDocumentFrom h fuel (hget h i).parent

/-- The ids visited by `for cur := i; cur != nil; cur = cur.parent`
(`i` itself first), with fuel (`none` = nonterminating walk). -/
def ancestorSelfChain (h : Heap) : Nat → Nat → Option (List Nat)
  | 0, _ => none
  | fuel + 1, i =>
    match (hget h i).parent with
    | none => some [i]
    | some p => (ancestorSelfChain h fuel p).map (i :: ·)

/-- Model of `allowMove(parent, child *node) bool` (node.go): the kind check, then the
owning-document comparison, then the descendant scan over `parent`'s chain.
`none` models nontermination of the Go loops on a cyclic parent graph. -/
def allowMove (h : Heap) (fuel parent child : Nat) : Option Bool :=
  if allowInsertChild (nkind h parent) (nkind h child) = false then some false
  else
    match ownerDocument h fuel parent, ownerDocument h fuel child with
    | some d1, some d2 =>
      if d1 ≠ d2 then some false
      else (ancestorSelfChain h fuel parent).map (fun ids => !ids.contains child)
    | _, _ => none

theorem ownerDocumentFrom_of_chain (h : Heap) :
    ∀ (fuel i : Nat) (ids : List Nat),
      ancestorSelfChain h fuel i = some ids →
      ownerDocumentFrom h fuel (some i) = some none := by
  intro fuel
  induction fuel with
  | zero => intro i ids hch; simp [ancestorSelfChain] at hch
  | succ f ih =>
    intro i ids hch
    simp only [ancestorSelfChain] at hch
    simp only [ownerDocumentFrom, valueIsDocument, if_neg]
    cases hp : (hget h i).parent with
    | none => simp [ownerDocumentFrom]
    | some p =>
      rw [hp] at hch
      simp only [Option.map_eq_some'] at hch
      obtain ⟨ids', hch', _⟩ := hch
      exact ih p ids' hch'

theorem ownerDocumentFrom_mono (h : Heap) :
    ∀ (fuel : Nat) (o : Option Nat) (v : Option Nat),
      ownerDocumentFrom h fuel o = some v →
      ownerDocumentFrom h (fuel + 1) o = some v := by
  intro fuel
  induction fuel with
  | zero =>
    intro o v hv
    cases o with
    | none => simpa [ownerDocumentFrom] using hv
    | some i => simp [ownerDocumentFrom] at hv
  | succ f ih =>
    intro o v hv
    cases o with
    | none => simpa [ownerDocumentFrom] using hv
    | some i =>
      simp only [ownerDocumentFrom, valueIsDocument, if_neg] at hv ⊢
      exact ih _ _ hv

theorem ownerDocument_of_chain (h : Heap) (fuel i : Nat) (ids : List Nat)
    (hch : ancestorSelfChain h fuel i = some ids) :
    ownerDocument h fuel i = some none := by
  cases fuel with
  | zero => simp [ancestorSelfChain] at hch
  | succ f =>
    simp only [ancestorSelfChain] at hch
    rw [ownerDocument]
    cases hp : (hget h i).parent with
    | none => simp [ownerDocumentFrom]
    | some p =>
      rw [hp] at hch
      simp only [Option.map_eq_some'] at hch
      obtain ⟨ids', hch', _⟩ := hch
      exact ownerDocumentFrom_mono h f _ _ (ownerDocumentFrom_of_chain h f p ids' hch')

/-- Claim C4 (amended). The `allowMove` predicate permits a relocation exactly
when the kind-compatibility check passes and the destination parent is
neither the moved node nor one of its strict... (the scan starts at the
destination itself) — i.e. the destination is not in the moved node's
subtree-path; the owning-document comparison is vacuous because
`OwnerDocument`'s type assertion never matches a stored payload value, so
both sides are always nil.  No mutation operation invokes `allowMove` (see
the counterexample), so this predicate is the only place the move conditions
exist. -/
theorem claim_C4_allowMove_characterization :
    ∀ (h : Heap) (fuel p c : Nat) (ids idsC : List Nat),
      ancestorSelfChain h fuel p = some ids →
      ancestorSelfChain h fuel c = some idsC →
      allowMove h fuel p c =
        some (allowInsertChild (nkind h p) (nkind h c) && !ids.contains c) := by
  intro h fuel p c ids idsC hp hc
  rw [allowMove]
  cases hall : allowInsertChild (nkind h p) (nkind h c) with
  | false => simp
  | true =>
    simp only [Bool.true_eq_false, if_neg, Bool.true_and]
    rw [ownerDocument_of_chain h fuel p ids hp, ownerDocument_of_chain h fuel c idsC hc]
    simp [hp]

theorem claim_C4_allowMove_characterization_witness :
    allowMove hC4 10 2 1 = some false := by
  have := claim_C4_allowMove_characterization hC4 10 2 1 [2, 1, 0] [1, 0]
    (by decide) (by decide)
  rw [this]
  decide

theorem claim_C5_invalid_insert_noop_witness :
    ∃ h', nAppendChild [{ kind := .text, data := "t".data },
        { kind := .element }] 0 1 = .err .hierarchyRequest h' ∧
      ∀ j, hget h' j = hget [{ kind := .text, data := "t".data },
        { kind := .element }] j :=
  (claim_C5_invalid_insert_noop
    [{ kind := .text, data := "t".data }, { kind := .element }] 0 1 none
    (by decide)).1

/-! ## Claim C10: `PreviousSibling` on linked and on fresh nodes -/

/-- Adjacent-link conditions of a sibling list: each consecutive pair `a, b`
has `b.prevSib = a` and `a.nextSib = b`. -/
def adjOkB (h : Heap) : List Nat → Bool
  | a :: b :: rest =>
    ((hget h b).prevSib == some a && (hget h a).nextSib == some b) &&
      adjOkB h (b :: rest)
  | _ => true

/-- Here `cs` is a proper circular-tail sibling list of parent `p`: `firstChild`
is the head, the head's `prevSib` is the tail, the tail's `nextSib` is
absent, consecutive links match, and all members' parent links point at `p`. -/
def listOkB (h : Heap) (p : Nat) (cs : List Nat) : Bool :=
  match cs with
  | [] => (hget h p).firstChild == none
  | c0 :: rest =>
    ((hget h p).firstChild == some c0) &&
    ((hget h c0).prevSib == some ((c0 :: rest).getLast (List.cons_ne_nil c0 rest))) &&
    ((hget h ((c0 :: rest).getLast (List.cons_ne_nil c0 rest))).nextSib == none) &&
    adjOkB h (c0 :: rest) &&
    (c0 :: rest).all (fun c => (hget h c).parent == some p)

theorem adjOkB_spec (h : Heap) :
    ∀ (cs : List Nat), adjOkB h cs = true →
      ∀ (i : Nat) (hi : i + 1 < cs.length),
        (hget h (cs.get ⟨i + 1, hi⟩)).prevSib =
            some (cs.get ⟨i, Nat.lt_of_succ_lt hi⟩) ∧
          (hget h (cs.get ⟨i, Nat.lt_of_succ_lt hi⟩)).nextSib =
            some (cs.get ⟨i + 1, hi⟩) := by
  intro cs
  induction cs with
  | nil => intro _ i hi; simp at hi
  | cons a t ih =>
    intro hadj i hi
    cases t with
    | nil => simp at hi
    | cons b r =>
      simp only [adjOkB, Bool.and_eq_true, beq_iff_eq] at hadj
      obtain ⟨⟨hpb, hna⟩, hrest⟩ := hadj
      cases i with
      | zero => simpa using ⟨hpb, hna⟩
      | succ j =>
        have hi' : j + 1 < (b :: r).length := by
          simpa [Nat.succ_lt_succ_iff] using hi
        simpa using ih hrest j hi'

/-- Invariant carried through the attribute loop of `newStartElement`:
the element id stays in range, keeps a nil `prevSib`, and its attribute-list
head is never the element itself. -/
def NseInv (id : Nat) (acc : Heap) : Prop :=
  id < acc.length ∧ (hget acc id).prevSib = none ∧ (hget acc id).firstAttr ≠ some id

/-- Here `appendAttribute` leaves the owning element's `prevSib` link untouched
and only ever repoints its `firstAttr` to the freshly allocated attribute. -/
theorem appendAttribute_preserves (h : Heap) (attr id : Nat)
    (hlt : id < h.length) (hattr : id ≠ attr)
    (hhead : (hget h id).firstAttr ≠ some id) :
    (hget ((appendAttribute h attr id).getD h) id).prevSib
        = (hget h id).prevSib ∧
      ((hget ((appendAttribute h attr id).getD h) id).firstAttr
          = (hget h id).firstAttr ∨
        (hget ((appendAttribute h attr id).getD h) id).firstAttr = some attr) ∧
      ((appendAttribute h attr id).getD h).length = h.length := by
  cases hfc : (hget h id).firstAttr with
  | none =>
    simp only [appendAttribute, hfc, Option.getD_some]
    have hlt1 : id < (hmod h id fun r => { r with firstAttr := some attr }).length := by
      rw [hmod_length]; exact hlt
    rw [hget_hmod_other _ _ _ _ hattr, hget_hmod_same _ _ _ hlt]
    refine ⟨rfl, Or.inr rfl, ?_⟩
    rw [hmod_length, hmod_length]
  | some head =>
    have hhead' : id ≠ head := fun hcon => hhead (by rw [hfc, hcon])
    cases hpv : (hget h head).prevSib with
    | none =>
      simp only [appendAttribute, hfc, hpv, Option.getD_none, hfc]
      simp
    | some tail =>
      simp only [appendAttribute, hfc, hpv, Option.getD_some]
      rw [hget_hmod_other _ _ _ _ hhead', hget_hmod_other _ _ _ _ hattr]
      have hlen3 : ∀ (x : Heap) (j : Nat) (f : NodeRec → NodeRec),
          (hmod x j f).length = x.length := hmod_length
      by_cases htl : id = tail
      · subst htl
        rw [hget_hmod_same _ _ _ hlt]
        exact ⟨rfl, Or.inl hfc, by simp [hlen3]⟩
      · rw [hget_hmod_other _ _ _ _ htl]
        exact ⟨rfl, Or.inl hfc, by simp [hlen3]⟩

theorem nseStep_inv (id : Nat) (acc : Heap) (a : XAttr) (hinv : NseInv id acc) :
    NseInv id (nseStep id acc a) := by
  obtain ⟨hlt, hprev, hfa⟩ := hinv
  have hne_aid : id ≠ acc.length := Nat.ne_of_lt hlt
  have hlt' : id < (acc ++ [attrRec a]).length := by simp; omega
  have hga : hget (acc ++ [attrRec a]) id = hget acc id := hget_append_lt _ _ _ hlt
  have hpres := appendAttribute_preserves (acc ++ [attrRec a]) acc.length id hlt'
    hne_aid (by rw [hga]; exact hfa)
  have hstep : nseStep id acc a
      = (appendAttribute (acc ++ [attrRec a]) acc.length id).getD
          (acc ++ [attrRec a]) := rfl
  refine ⟨?_, ?_, ?_⟩
  · rw [hstep, hpres.2.2]; exact hlt'
  · rw [hstep, hpres.1, hga]; exact hprev
  · rw [hstep]
    rcases hpres.2.1 with hsame | hnew
    · rw [hsame, hga]; exact hfa
    · rw [hnew]; simpa using Ne.symm hne_aid

theorem nseFold_inv (id : Nat) :
    ∀ (attrs : List XAttr) (acc : Heap), NseInv id acc →
      NseInv id (attrs.foldl (nseStep id) acc) := by
  intro attrs
  induction attrs with
  | nil => intro acc hinv; exact hinv
  | cons a t ih => intro acc hinv; exact ih _ (nseStep_inv id acc a hinv)

theorem newStartElement_prevSib (h : Heap) (n : XName) (attrs : List XAttr) :
    (hget (newStartElement h n attrs).1 (newStartElement h n attrs).2).prevSib
      = none := by
  have hinv : NseInv h.length (h ++ [({ kind := .element, name := n } : NodeRec)]) := by
    refine ⟨by simp, ?_, ?_⟩
    · simp [hget, List.getD_eq_getElem?_getD, List.getElem?_append_right (le_refl _)]
    · simp [hget, List.getD_eq_getElem?_getD, List.getElem?_append_right (le_refl _)]
  exact (nseFold_inv h.length attrs _ hinv).2.1

/-- Claim C10. For a node lying in a proper sibling list, `PreviousSibling`
returns nil exactly for the head of the list and the previous sibling
otherwise; for a freshly created node (straight from the element or text
factory) the `prevSib` link is absent and the Go method dereferences it, so
the call panics (the embedding's `none` branch is reached) instead of
returning nil. -/
theorem claim_C10_previous_sibling :
    (∀ (h : Heap) (p : Nat) (cs : List Nat), listOkB h p cs = true →
      ∀ (i : Nat) (hi : i < cs.length),
        previousSibling h (cs.get ⟨i, hi⟩) =
          some (if i = 0 then none
            else some (cs.get ⟨i - 1, Nat.lt_of_le_of_lt (Nat.sub_le i 1) hi⟩))) ∧
    (∀ (h : Heap) (n : XName) (attrs : List XAttr),
      previousSibling (newStartElement h n attrs).1 (newStartElement h n attrs).2
        = none) ∧
    (∀ (h : Heap) (d : Str),
      previousSibling (newText h d).1 (newText h d).2 = none) := by
  refine ⟨?_, ?_, ?_⟩
  · intro h p cs hok i hi
    match cs, hi with
    | c0 :: rest, hi =>
      simp only [listOkB, Bool.and_eq_true, beq_iff_eq] at hok
      obtain ⟨⟨⟨⟨_, hheadprev⟩, hlastnext⟩, hadj⟩, _⟩ := hok
      cases i with
      | zero =>
        simp only [List.get, if_pos rfl]
        rw [previousSibling, hheadprev]
        simp [hlastnext]
      | succ j =>
        have hadjs := adjOkB_spec h (c0 :: rest) hadj j hi
        simp only [previousSibling, hadjs.1]
        rw [hadjs.2]
        simp
  · intro h n attrs
    rw [previousSibling, newStartElement_prevSib]
  · intro h d
    rw [previousSibling]
    have : (hget (newText h d).1 (newText h d).2).prevSib = none := by
      simp [newText, halloc, hget, List.getD_eq_getElem?_getD,
        List.getElem?_append_right (le_refl _)]
    rw [this]

/-- C10 witness scenario: a document (node 0) with two element children
(nodes 1 and 2) built through `AppendChild`. -/
def hC10 : Heap :=
  let h0 := (newDocument []).1
  let h1 := (newStartElement h0 ⟨[], "a".data⟩ []).1
  let h2 := match nAppendChild h1 0 1 with | .ok h => h | _ => []
  let h3 := (newStartElement h2 ⟨[], "b".data⟩ []).1
  match nAppendChild h3 0 2 with | .ok h => h | _ => []

theorem claim_C10_previous_sibling_witness :
    previousSibling hC10 ((([1, 2] : List Nat)).get ⟨1, by decide⟩) =
      some (some (([1, 2] : List Nat).get ⟨0, by decide⟩)) := by
  have := claim_C10_previous_sibling.1 hC10 0 [1, 2] (by decide) 1 (by decide)
  simpa using this

/-! ## Claim C6: CharacterData bounds checking (text.go)

The `text` payload stores its data as a Go `[]byte`, and every bound below is
a Go `len` of that byte slice, so lengths and offsets count *bytes* (the
`comment` payload embeds `text` and shares these methods unchanged).  We
model the buffer as a `List Nat` of bytes and Go `int` arguments as `Int`.
A Go slice-bounds panic (negative offset) is the outer `none`. -/

/-- Model of `(t *text).DeleteData(offset, count int) error`. -/
def textDeleteData (v : List Nat) (offset count : Int) :
    Option (List Nat × Option DomErr) :=
  if count < 0 ∨ offset + count > (v.length : Int) then some (v, some .indexSize)
  else if offset < 0 then none
  else some (v.take offset.toNat ++ v.drop (offset.toNat + count.toNat), none)

/-- Model of `(t *text).ReplaceData(offset, count int, arg string) error`: overwrites
`count` bytes at `offset` with the first `count` bytes of `arg` (exact-width
replacement; `copy` never grows the buffer). -/
def textReplaceData (v : List Nat) (offset count : Int) (arg : List Nat) :
    Option (List Nat × Option DomErr) :=
  if count < 0 ∨ offset + count > (v.length : Int) ∨ (arg.length : Int) < count then
    some (v, some .indexSize)
  else if offset < 0 then none
  else some (v.take offset.toNat ++ arg.take count.toNat
    ++ v.drop (offset.toNat + count.toNat), none)

/-- Model of `(t *text).InsertData(offset int, arg string) error`. -/
def textInsertData (v : List Nat) (offset : Int) (arg : List Nat) :
    Option (List Nat × Option DomErr) :=
  if 0 ≤ offset ∧ offset < (v.length : Int) then
    some (v.take offset.toNat ++ arg ++ v.drop offset.toNat, none)
  else some (v, some .indexSize)

/-- Number of UTF-8 runes encoded by a byte sequence: bytes in the
continuation range `0x80..0xBF` start no rune. -/
def utf8RuneLength : List Nat → Nat
  | [] => 0
  | b :: rest => (if b < 0x80 ∨ 0xC0 ≤ b then 1 else 0) + utf8RuneLength rest

/-- Claim C6 (counterexample to the rune-measured claim). On the two-byte
buffer holding the single rune `é` (UTF-8 `C3 A9`), `DeleteData(0, 2)` has
`offset + count = 2` exceeding the rune length 1, so under the claimed
rune-measured bound it must fail with `IndexSizeError`; the code instead
succeeds (bounds are byte-measured) and deletes both bytes. -/
theorem claim_C6_rune_counterexample :
    ((0 : Int) + 2 > (utf8RuneLength [0xC3, 0xA9] : Int)) ∧
    textDeleteData [0xC3, 0xA9] 0 2 = some ([], none) := by
  refine ⟨by decide, by decide⟩

/-- Claim C6 (amended: bounds measured in bytes). `InsertData(offset, s)`
returns `IndexSizeError` exactly when `offset` is outside `[0, len)` with
`len` the byte length; `DeleteData(offset, count)` and
`ReplaceData(offset, count, s)` return `IndexSizeError` whenever
`offset + count` exceeds the byte length, `ReplaceData` also when the
replacement is shorter than `count` bytes; in each error case the carried
buffer is the unchanged input.  In particular `DeleteData(5, 3)` on "abc"
and `ReplaceData(0, 3, "ab")` on "abc" fail, leaving "abc" unchanged. -/
theorem claim_C6_chardata_bounds :
    (∀ (v : List Nat) (offset : Int) (arg : List Nat),
      textInsertData v offset arg = some (v, some .indexSize) ↔
        ¬(0 ≤ offset ∧ offset < (v.length : Int))) ∧
    (∀ (v : List Nat) (offset count : Int),
      offset + count > (v.length : Int) →
        textDeleteData v offset count = some (v, some .indexSize)) ∧
    (∀ (v : List Nat) (offset count : Int) (arg : List Nat),
      offset + count > (v.length : Int) →
        textReplaceData v offset count arg = some (v, some .indexSize)) ∧
    (∀ (v : List Nat) (offset count : Int) (arg : List Nat),
      (arg.length : Int) < count →
        textReplaceData v offset count arg = some (v, some .indexSize)) ∧
    textDeleteData [97, 98, 99] 5 3 = some ([97, 98, 99], some .indexSize) ∧
    textReplaceData [97, 98, 99] 0 3 [97, 98] = some ([97, 98, 99], some .indexSize) := by
  refine ⟨?_, ?_, ?_, ?_, by decide, by decide⟩
  · intro v offset arg
    by_cases hc : 0 ≤ offset ∧ offset < (v.length : Int)
    · simp [textInsertData, hc]
    · simp [textInsertData, hc]
  · intro v offset count hover
    rw [textDeleteData, if_pos (Or.inr hover)]
  · intro v offset count arg hover
    rw [textReplaceData, if_pos (Or.inr (Or.inl hover))]
  · intro v offset count arg hshort
    rw [textReplaceData, if_pos (Or.inr (Or.inr hshort))]

theorem claim_C6_chardata_bounds_witness :
    textDeleteData ([] : List Nat) 1 1 = some ([], some .indexSize) :=
  claim_C6_chardata_bounds.2.1 [] 1 1 (by decide)

/-! ## Tokens, the streaming Builder, and the tree-order Marshaler

The `Builder` (attr.go) and the `Marshaler` (marshaler.go) exchange the
flexml token vocabulary.  Per the specification, the byte-level XML lexer
and serializer are external collaborators assumed correct; the embedding
therefore works at the repository's own boundary, the token stream, and the
external codec is the identity on tokens — equal emitted token sequences
serialize to identical byte sequences.

For this layer the tree is taken in its list form: a Builder run only ever
touches a node's child list through `AppendChild` (append at the tail), and
the marshal walk visits children head-to-tail, so the circular-sibling heap
representation (proved separately above) presents each parent's children as
the ordered list recorded here.  The Builder's Go cursor (`un.Node`, with
the parent link assigned at `StartElement` and the actual list insertion
deferred to `EndElement`) becomes the stack of still-open elements; at end
of stream, unclosed elements were never appended to the document, matching
the Go decoder's behaviour. -/

/-- The flexml token events consumed and produced by the `dom` package. -/
inductive Tok where
  | start (name : XName) (attrs : List XAttr)
  | endE (name : XName)
  | chardata (d : Str)
  | comment (d : Str)
  | procinst (target : Str) (inst : Str)
  | directive (d : Str)
  deriving DecidableEq, Repr

/-- The Builder's parse bitflags (attr.go), one Bool per flag actually read
by the Builder's event methods (`parseDoctype` and `parseFragment` are set
by options but never consulted by the embedded code). -/
structure Flags where
  trimPCData : Bool := false
  comments : Bool := false
  keepDecl : Bool := false
  keepPI : Bool := false
  wsPCData : Bool := false
  deriving DecidableEq, Repr

/-- A document-tree node in list form (the `decl` constructor also carries
its target, always "xml" for declarations the Builder creates; the synthetic
attributes `newDeclaration` parses out of the instruction text are not read
by any embedded operation and are omitted). -/
inductive PNode where
  | elem (name : XName) (attrs : List XAttr) (children : List PNode)
  | text (d : Str)
  | comment (d : Str)
  | procinst (target : Str) (inst : Str)
  | decl (target : Str) (inst : Str)

/-- An element opened by `StartElement` whose `EndElement` is pending. -/
structure OpenElem where
  name : XName
  attrs : List XAttr
  children : List PNode

/-- Builder state: the document root's accumulated children and the stack of
open elements (innermost first). -/
structure BState where
  root : List PNode := []
  opens : List OpenElem := []

/-- Whether the cursor is at the document (no element open). -/
def cursorAtDoc (st : BState) : Bool := st.opens.isEmpty

/-- Here `un.Node.NodeType()` at the cursor: the Document root or an Element. -/
def cursorKind (st : BState) : NodeType :=
  match st.opens with
  | [] => .document
  | _ :: _ => .element

/-- Here `un.Node.AppendChild(n)` at the cursor (append at the tail of the
current node's child list). -/
def appendAtCursor (st : BState) (n : PNode) : BState :=
  match st.opens with
  | [] => { st with root := st.root ++ [n] }
  | o :: rest => { st with opens := { o with children := o.children ++ [n] } :: rest }

/-- Model of `unicode.IsSpace`: Unicode White_Space code points (the set trimmed by
`bytes.TrimSpace` at rune level). -/
def isSpaceChar (c : Char) : Bool :=
  let n := c.toNat
  n == 9 || n == 10 || n == 11 || n == 12 || n == 13 || n == 32 ||
  n == 0x85 || n == 0xA0 || n == 0x1680 ||
  (decide (0x2000 ≤ n) && decide (n ≤ 0x200A)) ||
  n == 0x2028 || n == 0x2029 || n == 0x202F || n == 0x205F || n == 0x3000

/-- Model of `bytes.TrimSpace`: strip leading and trailing white space. -/
def trimS (s : Str) : Str := (s.dropWhile isSpaceChar).rdropWhile isSpaceChar

theorem dropWhile_rdropWhile_head (p : Char → Bool) (u : List Char)
    (hhd : ∀ (hne : u ≠ []), p (u.head hne) = false) :
    (u.rdropWhile p).dropWhile p = u.rdropWhile p := by
  obtain ⟨r, hr⟩ := List.rdropWhile_prefix p (l := u)
  cases hv : u.rdropWhile p with
  | nil => simp
  | cons x t =>
    rw [hv] at hr
    subst hr
    have hx : p x = false := by simpa using hhd (by simp)
    rw [List.dropWhile_cons_of_neg (by simp [hx])]

theorem trimS_idem (s : Str) : trimS (trimS s) = trimS s := by
  rw [trimS, trimS]
  rw [dropWhile_rdropWhile_head isSpaceChar (s.dropWhile isSpaceChar)
    (fun hne => List.head_dropWhile_not isSpaceChar s hne)]
  exact List.rdropWhile_idempotent isSpaceChar _

/-! ### Builder event methods (attr.go) -/

/-- Errors the Builder can return: the wrapped `ErrHierarchyRequest` from
`EndElement`/`allowInsertChildErr`, and the `Directive` placeholder error. -/
inductive BErr where
  | hierarchy
  | todo
  deriving DecidableEq, Repr

/-- Model of `(un *Builder).StartElement`: a new disconnected element becomes the
cursor (its parent is only recorded; list insertion is deferred). -/
def bStart (st : BState) (n : XName) (attrs : List XAttr) : BState :=
  { st with opens := ⟨n, attrs, []⟩ :: st.opens }

/-- Model of `(un *Builder).EndElement`: append the cursor node to its parent and
ascend (hierarchy error when the cursor has no parent). -/
def bEnd (st : BState) : Except BErr BState :=
  match st.opens with
  | [] => .error .hierarchy
  | o :: rest =>
    let parent : BState := { st with opens := rest }
    if allowInsertChild (cursorKind parent) .element = false then .error .hierarchy
    else .ok (appendAtCursor parent (.elem o.name o.attrs o.children))

/-- Model of `(un *Builder).CharData`. -/
def bCharData (fl : Flags) (st : BState) (d : Str) : Except BErr BState :=
  if allowInsertChild (cursorKind st) .text = false then .error .hierarchy
  else if d.length = 0 ∧ fl.wsPCData = false then .ok st
  else if fl.trimPCData = false then .ok (appendAtCursor st (.text d))
  else if fl.wsPCData = true ∨ (trimS d).length > 0 then
    .ok (appendAtCursor st (.text (trimS d)))
  else .ok st

/-- Model of `(un *Builder).Comment`. -/
def bComment (fl : Flags) (st : BState) (d : Str) : Except BErr BState :=
  if fl.comments = false then .ok st
  else if allowInsertChild (cursorKind st) .comment = false then .error .hierarchy
  else .ok (appendAtCursor st (.comment d))

/-- The node type `(un *Builder).ProcInst` assigns to a processing
instruction token: target "xml" means a Declaration. -/
def piKind (target : Str) : NodeType :=
  if target = "xml".data then .declaration else .processingInstruction

/-- Model of `(un *Builder).ProcInst`: the structural check comes first; storage is
then gated on the matching flag. -/
def bProcInst (fl : Flags) (st : BState) (target inst : Str) : Except BErr BState :=
  if allowInsertChild (cursorKind st) (piKind target) = false then .error .hierarchy
  else if piKind target = .declaration ∧ fl.keepDecl = true then
    .ok (appendAtCursor st (.decl target inst))
  else if piKind target = .processingInstruction ∧ fl.keepPI = true then
    .ok (appendAtCursor st (.procinst target inst))
  else .ok st

/-- One Builder step for one token (the dispatch loop of `UnmarshalXML`). -/
def bStep (fl : Flags) (st : BState) : Tok → Except BErr BState
  | .start n attrs => .ok (bStart st n attrs)
  | .endE _ => bEnd st
  | .chardata d => bCharData fl st d
  | .comment d => bComment fl st d
  | .procinst t i => bProcInst fl st t i
  | .directive _ => .error .todo

/-- Feed a token sequence to the Builder (end of stream maps `io.EOF` to
success, so an accepted stream is exactly one on which every step returns
without error). -/
def buildRun (fl : Flags) : List Tok → BState → Except BErr BState
  | [], st => .ok st
  | t :: rest, st =>
    match bStep fl st t with
    | .error e => .error e
    | .ok st' => buildRun fl rest st'

/-! ### Tree-order marshal (marshaler.go)

`treeOrder` performs an explicit-stack depth-first walk emitting one token
per node enter and, for elements, one per exit; over the child lists that
walk is exactly head-to-tail recursion, `ps` being the parent element's
*stored* namespace (`n.parent.xmlName().Space`).  `encodeNodeValueStart`
elides an element's namespace when it equals the parent's and the
`marshalExplicitNS` option is off; `endElementForNode` is invoked with the
`Marshaler.emitExplicitNS` field, which no option ever sets, so end-tag
names always elide. -/

/-- Namespace elision for an emitted name (`ex` = explicit-NS switch). -/
def elideSp (ex : Bool) (ps sp : Str) : Str :=
  if ex = false ∧ ps = sp then [] else sp

/-- The attribute filter of `encodeNodeValueStart`: the default `xmlns`
attribute is never re-emitted. -/
def filterAttrs (attrs : List XAttr) : List XAttr :=
  attrs.filter (fun a => a.name != xmlnsDefault)

/-- Token emission of the tree-order walk over a forest of siblings, given
the parent element's stored namespace `ps`. -/
def marshalForest (ex : Bool) : Str → List PNode → List Tok
  | _, [] => []
  | ps, .elem n attrs ch :: rest =>
    .start ⟨elideSp ex ps n.space, n.loc⟩ (filterAttrs attrs)
      :: (marshalForest ex n.space ch
        ++ (.endE ⟨elideSp false ps n.space, n.loc⟩ :: marshalForest ex ps rest))
  | ps, .text d :: rest => .chardata d :: marshalForest ex ps rest
  | ps, .comment d :: rest => .comment d :: marshalForest ex ps rest
  | ps, .procinst t i :: rest => .procinst t i :: marshalForest ex ps rest
  | ps, .decl t i :: rest => .procinst t i :: marshalForest ex ps rest

/-- Marshal a document: the Document node emits nothing and its children are
walked with the document's empty name as parent namespace. -/
def marshalDoc (ex : Bool) (root : List PNode) : List Tok :=
  marshalForest ex [] root

/-- The cursor of any Builder state over a Document root is a Document or an
Element, so a text child is always structurally valid. -/
theorem allow_text_at_cursor (st : BState) :
    allowInsertChild (cursorKind st) .text = true := by
  rw [cursorKind]; cases hop : st.opens <;> rfl

theorem allow_elem_at_cursor (st : BState) :
    allowInsertChild (cursorKind st) .element = true := by
  rw [cursorKind]; cases hop : st.opens <;> rfl

theorem allow_comment_at_cursor (st : BState) :
    allowInsertChild (cursorKind st) .comment = true := by
  rw [cursorKind]; cases hop : st.opens <;> rfl

theorem allow_pi_at_cursor (st : BState) :
    allowInsertChild (cursorKind st) .processingInstruction = true := by
  rw [cursorKind]; cases hop : st.opens <;> rfl

/-! ## Claim C7: Builder CharData configuration behaviour -/

/-- Claim C7. For every CharData token: empty data is dropped unless the
keep-whitespace-only-text flag is set; with the trim flag the data is
stripped of leading/trailing white space and dropped when the result is
empty unless keep-whitespace-only-text overrides; otherwise the data is
appended verbatim as a Text child of the current cursor node. -/
theorem claim_C7_builder_chardata :
    ∀ (fl : Flags) (st : BState) (d : Str),
      (d = [] → fl.wsPCData = false → bCharData fl st d = .ok st) ∧
      (fl.trimPCData = true → (fl.wsPCData = true ∨ trimS d ≠ []) →
        bCharData fl st d = .ok (appendAtCursor st (.text (trimS d)))) ∧
      (fl.trimPCData = true → trimS d = [] → fl.wsPCData = false →
        bCharData fl st d = .ok st) ∧
      (fl.trimPCData = false → (d ≠ [] ∨ fl.wsPCData = true) →
        bCharData fl st d = .ok (appendAtCursor st (.text d))) := by
  intro fl st d
  have hallow := allow_text_at_cursor st
  have hnotfalse : ¬(allowInsertChild (cursorKind st) .text = false) := by
    rw [hallow]; exact (by decide : (true : Bool) ≠ false)
  refine ⟨?_, ?_, ?_, ?_⟩
  · intro hd hws
    rw [bCharData, if_neg hnotfalse, if_pos ⟨by rw [hd]; rfl, hws⟩]
  · intro htrim hkeep
    have hguard : ¬(d.length = 0 ∧ fl.wsPCData = false) := by
      rintro ⟨hlen, hws⟩
      rcases hkeep with hws' | hne
      · rw [hws] at hws'; exact Bool.false_ne_true hws'
      · rw [List.length_eq_zero] at hlen
        exact hne (by rw [hlen]; rfl)
    have hcond : fl.wsPCData = true ∨ (trimS d).length > 0 := by
      rcases hkeep with hws | hne
      · exact Or.inl hws
      · exact Or.inr (List.length_pos.mpr hne)
    rw [bCharData, if_neg hnotfalse, if_neg hguard,
      if_neg (by rw [htrim]; exact (by decide : (true : Bool) ≠ false)), if_pos hcond]
  · intro htrim hnil hws
    by_cases hd : d = []
    · rw [bCharData, if_neg hnotfalse, if_pos ⟨by rw [hd]; rfl, hws⟩]
    · have hguard : ¬(d.length = 0 ∧ fl.wsPCData = false) := by
        rintro ⟨hlen, _⟩
        exact hd (List.length_eq_zero.mp hlen)
      have hcond : ¬(fl.wsPCData = true ∨ (trimS d).length > 0) := by
        rintro (hws' | hpos)
        · rw [hws] at hws'; exact Bool.false_ne_true hws'
        · rw [hnil] at hpos; simp at hpos
      rw [bCharData, if_neg hnotfalse, if_neg hguard,
        if_neg (by rw [htrim]; exact (by decide : (true : Bool) ≠ false)), if_neg hcond]
  · intro htrim hkeep
    have hguard : ¬(d.length = 0 ∧ fl.wsPCData = false) := by
      rintro ⟨hlen, hws⟩
      rcases hkeep with hne | hws'
      · exact hne (List.length_eq_zero.mp hlen)
      · rw [hws] at hws'; exact Bool.false_ne_true hws'
    rw [bCharData, if_neg hnotfalse, if_neg hguard, if_pos htrim]

theorem claim_C7_builder_chardata_witness :
    bCharData {} {} "hi".data = .ok (appendAtCursor {} (.text "hi".data)) :=
  (claim_C7_builder_chardata {} {} "hi".data).2.2.2 rfl (Or.inl (by decide))

/-! ## Claim C1: round-trip stability

We prove that decode-then-encode is a fixed point after one iteration at the
token boundary: re-decoding the marshaled token stream of any accepted
decode succeeds and re-marshals to the identical token stream.  The three
ingredients: every tree a Builder run produces is well formed
(`wfForestB`); feeding a well-formed forest's marshal output back to the
Builder rebuilds the forest up to namespace elision and attribute filtering
(`elideForest`); and elision is marshal-stable. -/

/-- The tree a rebuild produces: emitted (elided) element namespaces become
the stored ones and the default-`xmlns` attributes are gone; everything else
survives unchanged. -/
def elideForest (ex : Bool) : Str → List PNode → List PNode
  | _, [] => []
  | ps, .elem n attrs ch :: rest =>
    .elem ⟨elideSp ex ps n.space, n.loc⟩ (filterAttrs attrs) (elideForest ex n.space ch)
      :: elideForest ex ps rest
  | ps, .text d :: rest => .text d :: elideForest ex ps rest
  | ps, .comment d :: rest => .comment d :: elideForest ex ps rest
  | ps, .procinst t i :: rest => .procinst t i :: elideForest ex ps rest
  | ps, .decl t i :: rest => .decl t i :: elideForest ex ps rest

/-- Well-formedness of forests a Builder with flags `fl` can produce at a
given cursor level (`atDoc` = directly under the Document): stored text is
trim-stable when trimming is on and nonempty unless whitespace-only text is
kept; comments/processing instructions only under their flags; declarations
only under the Document, with target "xml"; processing-instruction nodes
never have target "xml". -/
def wfForestB (fl : Flags) : Bool → List PNode → Bool
  | _, [] => true
  | atDoc, .elem _ _ ch :: rest => wfForestB fl false ch && wfForestB fl atDoc rest
  | atDoc, .text d :: rest =>
    ((!fl.trimPCData || (trimS d == d)) && (fl.wsPCData || !(d == []))) &&
      wfForestB fl atDoc rest
  | atDoc, .comment _ :: rest => fl.comments && wfForestB fl atDoc rest
  | atDoc, .procinst t _ :: rest =>
    (fl.keepPI && !(t == "xml".data)) && wfForestB fl atDoc rest
  | atDoc, .decl t _ :: rest =>
    ((fl.keepDecl && (t == "xml".data)) && atDoc) && wfForestB fl atDoc rest

/-- Builder-state well-formedness. -/
def StWF (fl : Flags) (st : BState) : Prop :=
  wfForestB fl true st.root = true ∧
    ∀ o ∈ st.opens, wfForestB fl false o.children = true

theorem wfForestB_append (fl : Flags) (b : Bool) (l1 l2 : List PNode) :
    wfForestB fl b (l1 ++ l2) = (wfForestB fl b l1 && wfForestB fl b l2) := by
  induction l1 with
  | nil => simp [wfForestB]
  | cons hd tl ih => cases hd <;> simp [wfForestB, ih, Bool.and_assoc]

theorem cursorAtDoc_append (st : BState) (n : PNode) :
    cursorAtDoc (appendAtCursor st n) = cursorAtDoc st := by
  rw [appendAtCursor]; cases hop : st.opens <;> simp [cursorAtDoc, hop]

theorem appendAtCursor_wf (fl : Flags) (st : BState) (n : PNode)
    (hst : StWF fl st)
    (hn : wfForestB fl (cursorAtDoc st) [n] = true) :
    StWF fl (appendAtCursor st n) := by
  obtain ⟨hroot, hopen⟩ := hst
  rw [appendAtCursor]
  cases hop : st.opens with
  | nil =>
    have hn' : wfForestB fl true [n] = true := by
      simpa [cursorAtDoc, hop] using hn
    refine ⟨?_, ?_⟩
    · simp [wfForestB_append, hroot, hn']
    · intro o ho; simp at ho
  | cons o rest =>
    have hn' : wfForestB fl false [n] = true := by
      simpa [cursorAtDoc, hop] using hn
    refine ⟨hroot, ?_⟩
    intro o' ho'
    simp only [List.mem_cons] at ho'
    rcases ho' with rfl | hmem
    · show wfForestB fl false (o.children ++ [n]) = true
      simp [wfForestB_append,
        hopen o (by rw [hop]; exact List.mem_cons_self o rest), hn']
    · exact hopen o' (by rw [hop]; exact List.mem_cons_of_mem o hmem)

theorem bStep_wf (fl : Flags) (st : BState) (t : Tok) (st' : BState)
    (hstep : bStep fl st t = .ok st') (hst : StWF fl st) : StWF fl st' := by
  obtain ⟨hroot, hopen⟩ := hst
  cases t with
  | start n attrs =>
    simp only [bStep, bStart, Except.ok.injEq] at hstep
    subst hstep
    refine ⟨hroot, ?_⟩
    intro o ho
    simp only [List.mem_cons] at ho
    rcases ho with rfl | hmem
    · simp [wfForestB]
    · exact hopen o hmem
  | endE n =>
    rw [bStep] at hstep
    cases hop : st.opens with
    | nil =>
      simp only [bEnd, hop] at hstep
      exact absurd hstep (by simp)
    | cons o rest =>
      simp only [bEnd, hop] at hstep
      rw [if_neg (by rw [allow_elem_at_cursor]; exact (by decide : ¬(true = false)))]
        at hstep
      simp only [Except.ok.injEq] at hstep
      subst hstep
      refine appendAtCursor_wf fl _ _ ⟨hroot, ?_⟩ ?_
      · intro o' ho'
        exact hopen o' (by rw [hop]; exact List.mem_cons_of_mem o ho')
      · show wfForestB fl _ [.elem o.name o.attrs o.children] = true
        have hch := hopen o (by rw [hop]; exact List.mem_cons_self o rest)
        cases hdoc : cursorAtDoc { st with opens := rest } <;>
          simp [wfForestB, hch]
  | chardata d =>
    rw [bStep, bCharData,
      if_neg (by rw [allow_text_at_cursor]; exact (by decide : ¬(true = false)))] at hstep
    by_cases hguard : d.length = 0 ∧ fl.wsPCData = false
    · rw [if_pos hguard] at hstep
      simp only [Except.ok.injEq] at hstep
      subst hstep; exact ⟨hroot, hopen⟩
    · rw [if_neg hguard] at hstep
      by_cases htrim : fl.trimPCData = false
      · rw [if_pos htrim] at hstep
        simp only [Except.ok.injEq] at hstep
        subst hstep
        refine appendAtCursor_wf fl _ _ ⟨hroot, hopen⟩ ?_
        have hws : fl.wsPCData = true ∨ d ≠ [] := by
          by_cases hd : d = []
          · cases hv : fl.wsPCData with
            | true => exact Or.inl rfl
            | false => exact absurd ⟨by rw [hd]; rfl, hv⟩ hguard
          · exact Or.inr hd
        cases hdoc : cursorAtDoc st <;>
          · simp only [wfForestB, htrim]
            rcases hws with hws | hd
            · simp [hws]
            · simp [hd]
      · rw [if_neg htrim] at hstep
        have htrim' : fl.trimPCData = true := by
          cases hv : fl.trimPCData
          · exact absurd hv htrim
          · rfl
        by_cases hcond : fl.wsPCData = true ∨ (trimS d).length > 0
        · rw [if_pos hcond] at hstep
          simp only [Except.ok.injEq] at hstep
          subst hstep
          refine appendAtCursor_wf fl _ _ ⟨hroot, hopen⟩ ?_
          have hplus : fl.wsPCData = true ∨ trimS d ≠ [] := by
            rcases hcond with hws | hpos
            · exact Or.inl hws
            · exact Or.inr (List.length_pos.mp hpos)
          cases hdoc : cursorAtDoc st <;>
            · simp only [wfForestB, htrim', trimS_idem, beq_self_eq_true]
              rcases hplus with hws | hne
              · simp [hws]
              · simp [hne]
        · rw [if_neg hcond] at hstep
          simp only [Except.ok.injEq] at hstep
          subst hstep; exact ⟨hroot, hopen⟩
  | comment d =>
    rw [bStep, bComment] at hstep
    by_cases hfl : fl.comments = false
    · rw [if_pos hfl] at hstep
      simp only [Except.ok.injEq] at hstep
      subst hstep; exact ⟨hroot, hopen⟩
    · rw [if_neg hfl,
        if_neg (by rw [allow_comment_at_cursor]; exact (by decide : ¬(true = false)))]
        at hstep
      simp only [Except.ok.injEq] at hstep
      subst hstep
      refine appendAtCursor_wf fl _ _ ⟨hroot, hopen⟩ ?_
      have hfl' : fl.comments = true := by
        cases hv : fl.comments
        · exact absurd hv hfl
        · rfl
      cases hdoc : cursorAtDoc st <;> simp [wfForestB, hfl']
  | procinst tg i =>
    rw [bStep, bProcInst] at hstep
    by_cases htgt : tg = "xml".data
    · have hk : piKind tg = .declaration := by rw [piKind, if_pos htgt]
      rw [hk] at hstep
      by_cases hallow : allowInsertChild (cursorKind st) .declaration = false
      · rw [if_pos hallow] at hstep; exact absurd hstep (by simp)
      · rw [if_neg hallow] at hstep
        have hdoc : st.opens = [] := by
          by_contra hcon
          apply hallow
          rw [cursorKind]
          cases hop : st.opens with
          | nil => exact absurd hop hcon
          | cons o rest => rfl
        by_cases hfl : fl.keepDecl = true
        · rw [if_pos ⟨rfl, hfl⟩] at hstep
          simp only [Except.ok.injEq] at hstep
          subst hstep
          refine appendAtCursor_wf fl _ _ ⟨hroot, hopen⟩ ?_
          rw [cursorAtDoc, hdoc]
          simp [wfForestB, hfl, htgt]
        · rw [if_neg (fun hcon => hfl hcon.2)] at hstep
          rw [if_neg (fun hcon => by
            have := hcon.1
            simp at this)] at hstep
          simp only [Except.ok.injEq] at hstep
          subst hstep; exact ⟨hroot, hopen⟩
    · have hk : piKind tg = .processingInstruction := by rw [piKind, if_neg htgt]
      rw [hk] at hstep
      rw [if_neg (by rw [allow_pi_at_cursor]; exact (by decide : ¬(true = false)))]
        at hstep
      rw [if_neg (fun hcon => by
        have := hcon.1
        simp at this)] at hstep
      by_cases hfl : fl.keepPI = true
      · rw [if_pos ⟨rfl, hfl⟩] at hstep
        simp only [Except.ok.injEq] at hstep
        subst hstep
        refine appendAtCursor_wf fl _ _ ⟨hroot, hopen⟩ ?_
        cases hdoc : cursorAtDoc st <;> simp [wfForestB, hfl, htgt]
      · rw [if_neg (fun hcon => hfl hcon.2)] at hstep
        simp only [Except.ok.injEq] at hstep
        subst hstep; exact ⟨hroot, hopen⟩
  | directive d => exact absurd hstep (by simp [bStep])

theorem buildRun_wf (fl : Flags) :
    ∀ (toks : List Tok) (st st' : BState),
      buildRun fl toks st = .ok st' → StWF fl st → StWF fl st' := by
  intro toks
  induction toks with
  | nil =>
    intro st st' hrun hst
    simp only [buildRun, Except.ok.injEq] at hrun
    subst hrun; exact hst
  | cons t rest ih =>
    intro st st' hrun hst
    rw [buildRun] at hrun
    cases hstep : bStep fl st t with
    | error e => rw [hstep] at hrun; exact absurd hrun (by simp)
    | ok st1 =>
      rw [hstep] at hrun
      exact ih st1 st' hrun (bStep_wf fl st t st1 hstep hst)

/-! ### Rebuilding a marshaled forest -/

/-- Append a whole forest at the cursor, in order. -/
def appendForest (st : BState) (f : List PNode) : BState :=
  f.foldl appendAtCursor st

theorem appendForest_cons (st : BState) (n : PNode) (f : List PNode) :
    appendForest st (n :: f) = appendForest (appendAtCursor st n) f := rfl

theorem appendForest_root :
    ∀ (f : List PNode) (r : List PNode),
      appendForest ⟨r, []⟩ f = ⟨r ++ f, []⟩ := by
  intro f
  induction f with
  | nil => intro r; simp [appendForest]
  | cons n f ih =>
    intro r
    rw [appendForest_cons]
    show appendForest ⟨r ++ [n], []⟩ f = _
    rw [ih]
    simp

theorem appendForest_open (f : List PNode) :
    ∀ (r : List PNode) (o : OpenElem) (ops : List OpenElem),
      appendForest ⟨r, o :: ops⟩ f
        = ⟨r, { o with children := o.children ++ f } :: ops⟩ := by
  induction f with
  | nil => intro r o ops; simp [appendForest]
  | cons n f ih =>
    intro r o ops
    rw [appendForest_cons]
    show appendForest ⟨r, { o with children := o.children ++ [n] } :: ops⟩ f = _
    rw [ih]
    simp

theorem buildRun_cons_ok (fl : Flags) (t : Tok) (toks : List Tok)
    (st st1 : BState) (h : bStep fl st t = .ok st1) :
    buildRun fl (t :: toks) st = buildRun fl toks st1 := by
  rw [buildRun, h]

theorem buildRun_append_ok (fl : Flags) :
    ∀ (l1 l2 : List Tok) (st st1 : BState),
      buildRun fl l1 st = .ok st1 →
      buildRun fl (l1 ++ l2) st = buildRun fl l2 st1 := by
  intro l1
  induction l1 with
  | nil =>
    intro l2 st st1 h
    simp only [buildRun, Except.ok.injEq] at h
    subst h
    rfl
  | cons t rest ih =>
    intro l2 st st1 h
    rw [List.cons_append]
    rw [buildRun] at h
    cases hstep : bStep fl st t with
    | error e => rw [hstep] at h; exact absurd h (by simp)
    | ok stm =>
      rw [hstep] at h
      rw [buildRun_cons_ok fl t _ st stm hstep]
      exact ih l2 stm st1 h

/-- Here `bCharData` appends well-formed text verbatim. -/
theorem bCharData_verbatim (fl : Flags) (st : BState) (d : Str)
    (htr : fl.trimPCData = true → trimS d = d)
    (hws : fl.wsPCData = true ∨ d ≠ []) :
    bCharData fl st d = .ok (appendAtCursor st (.text d)) := by
  have hnotfalse : ¬(allowInsertChild (cursorKind st) .text = false) := by
    rw [allow_text_at_cursor]; exact (by decide : ¬(true = false))
  have hguard : ¬(d.length = 0 ∧ fl.wsPCData = false) := by
    rintro ⟨hlen, hwsf⟩
    rcases hws with hws | hne
    · rw [hwsf] at hws; exact Bool.false_ne_true hws
    · exact hne (List.length_eq_zero.mp hlen)
  cases htrim : fl.trimPCData with
  | false => rw [bCharData, if_neg hnotfalse, if_neg hguard, if_pos htrim]
  | true =>
    have hT : trimS d = d := htr htrim
    have hcond : fl.wsPCData = true ∨ (trimS d).length > 0 := by
      rcases hws with hws | hne
      · exact Or.inl hws
      · exact Or.inr (by rw [hT]; exact List.length_pos.mpr hne)
    rw [bCharData, if_neg hnotfalse, if_neg hguard,
      if_neg (by rw [htrim]; exact (by decide : ¬(true = false))), if_pos hcond, hT]

theorem cursorAtDoc_bStart (st : BState) (n : XName) (attrs : List XAttr) :
    cursorAtDoc (bStart st n attrs) = false := rfl

/-- Feeding the marshal output of a well-formed forest back into the Builder
succeeds and appends the elided forest at the cursor. -/
theorem rebuild_forest (fl : Flags) (ex : Bool) :
    ∀ (ps : Str) (f : List PNode) (st : BState),
      wfForestB fl (cursorAtDoc st) f = true →
      buildRun fl (marshalForest ex ps f) st =
        .ok (appendForest st (elideForest ex ps f)) := by
  intro ps f
  induction ps, f using marshalForest.induct ex with
  | case1 ps =>
    intro st hwf
    simp [marshalForest, elideForest, buildRun, appendForest]
  | case2 ps n attrs ch rest ihch ihrest =>
    intro st hwf
    simp only [wfForestB, Bool.and_eq_true] at hwf
    obtain ⟨hch, hrest⟩ := hwf
    simp only [marshalForest]
    rw [buildRun_cons_ok fl
      (.start ⟨elideSp ex ps n.space, n.loc⟩ (filterAttrs attrs)) _ st
      (bStart st ⟨elideSp ex ps n.space, n.loc⟩ (filterAttrs attrs)) rfl]
    rw [buildRun_append_ok fl _ _ _ _
      (ihch _ (by rw [cursorAtDoc_bStart]; exact hch))]
    have hmid : appendForest
        (bStart st ⟨elideSp ex ps n.space, n.loc⟩ (filterAttrs attrs))
        (elideForest ex n.space ch)
        = ⟨st.root, ⟨⟨elideSp ex ps n.space, n.loc⟩, filterAttrs attrs,
            [] ++ elideForest ex n.space ch⟩ :: st.opens⟩ := by
      show appendForest ⟨st.root, ⟨⟨elideSp ex ps n.space, n.loc⟩,
        filterAttrs attrs, []⟩ :: st.opens⟩ (elideForest ex n.space ch) = _
      rw [appendForest_open]
    rw [hmid]
    have hstep2 : bStep fl
        (⟨st.root, ⟨⟨elideSp ex ps n.space, n.loc⟩, filterAttrs attrs,
          [] ++ elideForest ex n.space ch⟩ :: st.opens⟩ : BState)
        (.endE ⟨elideSp false ps n.space, n.loc⟩)
        = .ok (appendAtCursor st (.elem ⟨elideSp ex ps n.space, n.loc⟩
            (filterAttrs attrs) ([] ++ elideForest ex n.space ch))) := by
      simp only [bStep, bEnd]
      rw [if_neg (by rw [allow_elem_at_cursor]; exact (by decide : ¬(true = false)))]
    rw [buildRun_cons_ok fl _ _ _ _ hstep2]
    rw [ihrest _ (by rw [cursorAtDoc_append]; exact hrest)]
    simp only [elideForest, appendForest_cons, List.nil_append]
  | case3 ps d rest ihrest =>
    intro st hwf
    simp only [wfForestB, Bool.and_eq_true] at hwf
    obtain ⟨⟨htr, hws⟩, hrest⟩ := hwf
    simp only [marshalForest]
    have hstep : bStep fl st (.chardata d) = .ok (appendAtCursor st (.text d)) := by
      rw [bStep]
      refine bCharData_verbatim fl st d (fun htrim => ?_) ?_
      · rcases Bool.or_eq_true_iff.mp htr with hcon | hT
        · rw [htrim] at hcon; exact absurd hcon (by decide)
        · exact beq_iff_eq.mp hT
      · rcases Bool.or_eq_true_iff.mp hws with hT | hne
        · exact Or.inl hT
        · right
          intro hcon
          rw [hcon] at hne
          simp at hne
    rw [buildRun_cons_ok fl _ _ _ _ hstep]
    rw [ihrest _ (by rw [cursorAtDoc_append]; exact hrest)]
    simp only [elideForest, appendForest_cons]
  | case4 ps d rest ihrest =>
    intro st hwf
    simp only [wfForestB, Bool.and_eq_true] at hwf
    obtain ⟨hc, hrest⟩ := hwf
    simp only [marshalForest]
    have hstep : bStep fl st (.comment d) = .ok (appendAtCursor st (.comment d)) := by
      rw [bStep, bComment, if_neg (by rw [hc]; exact (by decide : ¬(true = false))),
        if_neg (by rw [allow_comment_at_cursor]; exact (by decide : ¬(true = false)))]
    rw [buildRun_cons_ok fl _ _ _ _ hstep]
    rw [ihrest _ (by rw [cursorAtDoc_append]; exact hrest)]
    simp only [elideForest, appendForest_cons]
  | case5 ps t i rest ihrest =>
    intro st hwf
    simp only [wfForestB, Bool.and_eq_true] at hwf
    obtain ⟨⟨hpi, ht⟩, hrest⟩ := hwf
    have htgt : t ≠ "xml".data := by
      intro hcon
      rw [hcon] at ht
      simp at ht
    have hk : piKind t = .processingInstruction := by rw [piKind, if_neg htgt]
    simp only [marshalForest]
    have hstep : bStep fl st (.procinst t i)
        = .ok (appendAtCursor st (.procinst t i)) := by
      rw [bStep, bProcInst, hk,
        if_neg (by rw [allow_pi_at_cursor]; exact (by decide : ¬(true = false))),
        if_neg (fun hcon => by have := hcon.1; simp at this), if_pos ⟨rfl, hpi⟩]
    rw [buildRun_cons_ok fl _ _ _ _ hstep]
    rw [ihrest _ (by rw [cursorAtDoc_append]; exact hrest)]
    simp only [elideForest, appendForest_cons]
  | case6 ps t i rest ihrest =>
    intro st hwf
    simp only [wfForestB, Bool.and_eq_true] at hwf
    obtain ⟨⟨⟨hdf, ht⟩, hdoc⟩, hrest⟩ := hwf
    have htgt : t = "xml".data := beq_iff_eq.mp ht
    have hk : piKind t = .declaration := by rw [piKind, if_pos htgt]
    have hop : st.opens = [] := by
      rw [cursorAtDoc] at hdoc
      exact List.isEmpty_iff.mp hdoc
    simp only [marshalForest]
    have hstep : bStep fl st (.procinst t i)
        = .ok (appendAtCursor st (.decl t i)) := by
      rw [bStep, bProcInst, hk,
        if_neg (by rw [cursorKind, hop]; exact (by decide :
          ¬(allowInsertChild .document .declaration = false))),
        if_pos ⟨rfl, hdf⟩]
    rw [buildRun_cons_ok fl _ _ _ _ hstep]
    rw [ihrest _ (by rw [cursorAtDoc_append]; exact hrest)]
    simp only [elideForest, appendForest_cons]

/-! ### Marshal stability under elision -/

theorem elideSp_cases (ex : Bool) (ps sp : Str) :
    elideSp ex ps sp = sp ∨ (ex = false ∧ elideSp ex ps sp = []) := by
  by_cases h : ex = false ∧ ps = sp
  · exact Or.inr ⟨h.1, by rw [elideSp, if_pos h]⟩
  · exact Or.inl (by rw [elideSp, if_neg h])

theorem elideSp_stable_start (ex : Bool) (ps ps' sp : Str)
    (h : ps' = ps ∨ (ex = false ∧ ps' = [])) :
    elideSp ex ps' (elideSp ex ps sp) = elideSp ex ps sp := by
  cases ex with
  | true => rw [elideSp]; simp
  | false =>
    by_cases hps : ps = sp
    · have he : elideSp false ps sp = [] := by rw [elideSp, if_pos ⟨rfl, hps⟩]
      rw [he, elideSp]
      by_cases hz : ps' = ([] : Str)
      · rw [if_pos ⟨rfl, hz⟩]
      · rw [if_neg (fun hcon => hz hcon.2)]
    · have he : elideSp false ps sp = sp := by
        rw [elideSp, if_neg (fun hcon => hps hcon.2)]
      rw [he, elideSp]
      rcases h with rfl | ⟨_, rfl⟩
      · rw [if_neg (fun hcon => hps hcon.2)]
      · by_cases hz : ([] : Str) = sp
        · rw [if_pos ⟨rfl, hz⟩, hz]
        · rw [if_neg (fun hcon => hz hcon.2)]

theorem elideSp_stable_end (ex : Bool) (ps ps' sp : Str)
    (h : ps' = ps ∨ (ex = false ∧ ps' = [])) :
    elideSp false ps' (elideSp ex ps sp) = elideSp false ps sp := by
  cases ex with
  | true =>
    have he : elideSp true ps sp = sp := by rw [elideSp]; simp
    rw [he]
    rcases h with rfl | ⟨hcon, _⟩
    · rfl
    · exact absurd hcon (by decide)
  | false => exact elideSp_stable_start false ps ps' sp h

theorem filterAttrs_idem (attrs : List XAttr) :
    filterAttrs (filterAttrs attrs) = filterAttrs attrs := by
  rw [filterAttrs, filterAttrs, List.filter_filter]
  simp

/-- Marshaling is unchanged by elision: the rebuilt tree emits the same
token stream as the original. -/
theorem marshal_elide (ex : Bool) :
    ∀ (ps : Str) (f : List PNode) (ps' : Str),
      (ps' = ps ∨ (ex = false ∧ ps' = [])) →
      marshalForest ex ps' (elideForest ex ps f) = marshalForest ex ps f := by
  intro ps f
  induction ps, f using marshalForest.induct ex with
  | case1 ps => intro ps' h; simp only [elideForest, marshalForest]
  | case2 ps n attrs ch rest ihch ihrest =>
    intro ps' h
    simp only [elideForest, marshalForest]
    rw [elideSp_stable_start ex ps ps' n.space h, elideSp_stable_end ex ps ps' n.space h]
    rw [filterAttrs_idem]
    rw [ihch _ (elideSp_cases ex ps n.space)]
    rw [ihrest _ h]
  | case3 ps d rest ihrest =>
    intro ps' h
    simp only [elideForest, marshalForest]
    rw [ihrest _ h]
  | case4 ps d rest ihrest =>
    intro ps' h
    simp only [elideForest, marshalForest]
    rw [ihrest _ h]
  | case5 ps t i rest ihrest =>
    intro ps' h
    simp only [elideForest, marshalForest]
    rw [ihrest _ h]
  | case6 ps t i rest ihrest =>
    intro ps' h
    simp only [elideForest, marshalForest]
    rw [ihrest _ h]

/-- The Builder's initial state over a fresh Document root. -/
def initB : BState := {}

/-- Claim C1. Round-trip stability at the token boundary: for every token
stream the Builder accepts (any flag set, any marshal namespace option),
marshaling the decoded tree, decoding that output again, and marshaling a
second time yields the identical token sequence — `encode ∘ decode` is a
fixed point after one iteration.  The byte-level XML lexer/serializer is the
external collaborator the specification assumes correct, and the serializer
is a function of the token stream, so equal token streams give
byte-identical output. -/
theorem claim_C1_roundtrip_stability :
    ∀ (fl : Flags) (ex : Bool) (x : List Tok) (st1 : BState),
      buildRun fl x initB = .ok st1 →
      ∃ st2, buildRun fl (marshalDoc ex st1.root) initB = .ok st2 ∧
        marshalDoc ex st2.root = marshalDoc ex st1.root := by
  intro fl ex x st1 hrun
  have hwf : StWF fl st1 := buildRun_wf fl x initB st1 hrun
    ⟨by simp [initB, wfForestB], by intro o ho; simp [initB] at ho⟩
  have hreb := rebuild_forest fl ex [] st1.root initB (by
    have hdoc : cursorAtDoc initB = true := rfl
    rw [hdoc]; exact hwf.1)
  refine ⟨appendForest initB (elideForest ex [] st1.root), by rw [marshalDoc]; exact hreb, ?_⟩
  have hroot : (appendForest initB (elideForest ex [] st1.root)).root
      = elideForest ex [] st1.root := by
    show (appendForest ⟨[], []⟩ (elideForest ex [] st1.root)).root = _
    rw [appendForest_root]
    simp
  rw [marshalDoc, marshalDoc, hroot]
  exact marshal_elide ex [] st1.root [] (Or.inl rfl)

/-- C1 witness scenario: decode a small document with the test fixture's
flag set (trim, comments, declaration, processing instructions). -/
def flC1 : Flags := { trimPCData := true, comments := true, keepDecl := true, keepPI := true }

def xC1 : List Tok :=
  [.start ⟨"ns".data, "a".data⟩ [], .chardata "  hi  ".data, .endE ⟨"ns".data, "a".data⟩]

def stC1 : BState :=
  { root := [.elem ⟨"ns".data, "a".data⟩ [] [.text "hi".data]], opens := [] }

theorem claim_C1_roundtrip_stability_witness :
    ∃ st2, buildRun flC1 (marshalDoc false stC1.root) initB = .ok st2 ∧
      marshalDoc false st2.root = marshalDoc false stC1.root :=
  claim_C1_roundtrip_stability flC1 false xC1 stC1 (by rfl)

/-! ## Claim C8: the JSON-to-XML bridge (json_decoder.go)

`JSONDecoder` consumes the token stream of `encoding/json` (an external
collaborator, like the flexml lexer) and drives the `TokenDecoder` — in the
tests, the `Builder` with its default (empty) flag set.  The embedding
models the decoder's trampoline (`runJSDecoder`) over the state-function
values `jsDecodeStart`, `jsDecodeObject` and `jsDecodeArray`, with the
`jdStack` of pending state/key pairs and the Builder state as data. -/

/-- One token of `(encoding/json).Decoder.Token` with `UseNumber()` set:
the four delimiters, strings, numbers (kept as their literal text, which is
what `json.Number.String` returns), booleans and null. -/
inductive JTok where
  | obj
  | objEnd
  | arr
  | arrEnd
  | jstr (s : Str)
  | jnum (s : Str)
  | jbool (b : Bool)
  | jnull
  deriving DecidableEq, Repr

/-- Model of `strings.Index(input, ":")`: position of the first colon, if any. -/
def colonIdx : Str → Option Nat
  | [] => none
  | c :: rest => if c = ':' then some 0 else (colonIdx rest).map (· + 1)

/-- Model of `jsTagToName`: split the key at the first colon when that colon is not
the leading character; otherwise the whole key is the local name. -/
def jsTagToName (input : Str) : XName :=
  match colonIdx input with
  | some idx => if idx > 0 then ⟨input.take idx, input.drop (idx + 1)⟩ else ⟨[], input⟩
  | none => ⟨[], input⟩

/-- The text `d.decode` passes to `CharData` for each scalar token:
strings verbatim, numbers via `json.Number.String`, booleans via
`fmt.Sprintf` and null as the empty string (`none` for delimiters, which
never reach `d.decode`). -/
def jvalStr : JTok → Option Str
  | .jstr s => some s
  | .jnum s => some s
  | .jbool true => some "true".data
  | .jbool false => some "false".data
  | .jnull => some []
  | _ => none

/-- The state-function values of the trampoline; `nilF` is both the nil
returned by `bail` and the zero value popped off an empty stack. -/
inductive JFn where
  | startF
  | objF
  | arrF
  | nilF
  deriving DecidableEq, Repr

/-- Model of `jdState`: a pushed continuation and the object key it was pushed
under. -/
structure JDFrame where
  fn : JFn := .nilF
  key : Str := []
  deriving DecidableEq, Repr

/-- Model of `jdStack.pop`: the zero-valued frame when the stack is empty. -/
def jdPop : List JDFrame → JDFrame × List JDFrame
  | [] => (⟨.nilF, []⟩, [])
  | f :: rest => (f, rest)

/-- The errors `bail` receives: token-stream exhaustion, the non-delimiter
start token, a non-string object key, the nested-array rejection, the
unexpected-delimiter case of `jsDecodeObject`, a `TokenDecoder` error, and
the fuel bound of the embedded trampoline (never reached when the fuel
exceeds the token count, as every state call consumes a token). -/
inductive JErr where
  | eofErr
  | unexpectedTok
  | badKey
  | nestedArrays
  | unexpectedDelim
  | builder (e : BErr)
  | fuel
  deriving DecidableEq, Repr

/-- The decoder's mutable data: remaining tokens, the `jdStack`, and the
Builder the emitted events mutate. -/
structure JDSt where
  toks : List JTok
  stack : List JDFrame
  bst : BState

/-- Model of `d.decode(name, value)`: StartElement, CharData, EndElement. -/
def jsDecodeValue (fl : Flags) (st : BState) (name : XName) (v : Str) :
    Except JErr BState :=
  match bStep fl st (.start name []) with
  | .error e => .error (.builder e)
  | .ok st1 =>
    match bStep fl st1 (.chardata v) with
    | .error e => .error (.builder e)
    | .ok st2 =>
      match bStep fl st2 (.endE name) with
      | .error e => .error (.builder e)
      | .ok st3 => .ok st3

/-- Model of `jsDecodeStart`: dispatch on the first token. -/
def jsDecodeStart (s : JDSt) : Except JErr (JFn × JDSt) :=
  match s.toks with
  | [] => .error .eofErr
  | .obj :: rest => .ok (.objF, { s with toks := rest })
  | .arr :: rest => .ok (.arrF, { s with toks := rest })
  | _ :: _ => .error .unexpectedTok

/-- The tail of `jsDecodeObject` once `d.More()` is false: consume the
closing delimiter, pop, and close the element recorded in the popped frame
when its key is non-empty. -/
def jsObjClose (fl : Flags) (rest : List JTok) (stk : List JDFrame)
    (st : BState) : Except JErr (JFn × JDSt) :=
  match jdPop stk with
  | (prev, stk1) =>
    if prev.key ≠ [] then
      match bStep fl st (.endE (jsTagToName prev.key)) with
      | .error e => .error (.builder e)
      | .ok st1 => .ok (prev.fn, ⟨rest, stk1, st1⟩)
    else .ok (prev.fn, ⟨rest, stk1, st⟩)

/-- Model of `jsDecodeObject`: read key/value token pairs while `d.More()`.  A close
delimiter at the head means `More` is false; a single remaining token makes
the second `Token()` read fail, upon which the code calls `bail` with the
*first* read's nil error, silently ending the run. -/
def jsDecodeObject (fl : Flags) : List JTok → List JDFrame → BState →
    Except JErr (JFn × JDSt)
  | [], _, _ => .error .eofErr
  | .objEnd :: rest, stk, st => jsObjClose fl rest stk st
  | .arrEnd :: rest, stk, st => jsObjClose fl rest stk st
  | _ :: [], stk, st => .ok (.nilF, ⟨[], stk, st⟩)
  | .jstr key :: t2 :: rest, stk, st =>
    match t2 with
    | .arr => .ok (.arrF, ⟨rest, ⟨.objF, key⟩ :: stk, st⟩)
    | .obj => .ok (.objF, ⟨rest, ⟨.objF, key⟩ :: stk,
        bStart st (jsTagToName key) []⟩)
    | .objEnd => .error .unexpectedDelim
    | .arrEnd => .error .unexpectedDelim
    | v =>
      match jsDecodeValue fl st (jsTagToName key) ((jvalStr v).getD []) with
      | .error e => .error e
      | .ok st1 => jsDecodeObject fl rest stk st1
  | _ :: _ :: _, _, _ => .error .badKey

/-- Model of `jsDecodeArray`: read value tokens while `d.More()`, naming each element
after the key peeked from the stack; a nested open bracket is rejected; on
close, pop without emitting any end element. -/
def jsDecodeArray (fl : Flags) : List JTok → List JDFrame → BState →
    Except JErr (JFn × JDSt)
  | [], _, _ => .error .eofErr
  | .objEnd :: rest, stk, st =>
    .ok ((jdPop stk).1.fn, ⟨rest, (jdPop stk).2, st⟩)
  | .arrEnd :: rest, stk, st =>
    .ok ((jdPop stk).1.fn, ⟨rest, (jdPop stk).2, st⟩)
  | t :: rest, stk, st =>
    match t with
    | .obj => .ok (.objF, ⟨rest, ⟨.arrF, (jdPop stk).1.key⟩ :: stk,
        bStart st (jsTagToName (jdPop stk).1.key) []⟩)
    | .arr => .error .nestedArrays
    | v =>
      match jsDecodeValue fl st (jsTagToName (jdPop stk).1.key)
          ((jvalStr v).getD []) with
      | .error e => .error e
      | .ok st1 => jsDecodeArray fl rest stk st1

/-- One trampoline iteration: invoke the current state function. -/
def jsStep (fl : Flags) : JFn → JDSt → Except JErr (JFn × JDSt)
  | .startF, s => jsDecodeStart s
  | .objF, s => jsDecodeObject fl s.toks s.stack s.bst
  | .arrF, s => jsDecodeArray fl s.toks s.stack s.bst
  | .nilF, s => .ok (.nilF, s)

/-- Model of `runJSDecoder`: iterate until the state function is nil. -/
def jsSteps (fl : Flags) : Nat → JFn → JDSt → Except JErr BState
  | _, .nilF, s => .ok s.bst
  | 0, _, _ => .error .fuel
  | fuel + 1, f, s =>
    match jsStep fl f s with
    | .error e => .error e
    | .ok (f1, s1) => jsSteps fl fuel f1 s1

/-- The `Run` method of the JSON decoder over a token stream, starting from
`jsDecodeStart` with an empty stack (each non-nil state call consumes at
least one token, so this fuel is never exhausted). -/
def jsRun (fl : Flags) (toks : List JTok) (st : BState) :
    Except JErr BState :=
  jsSteps fl (toks.length + 1) .startF ⟨toks, [], st⟩

/-! ### A byte renderer for the marshal token stream (spec-modelled)

spec-modelled: the byte serializer is the external flexml `Encoder`, which
is not part of this repository's sources.  Its observable behaviour is
pinned by the repository's own test fixtures (part_004): a start tag
renders a non-empty namespace as a default `xmlns` attribute, an end tag
renders the local name only, character data is entity-escaped (`&amp;` and
`&#39;` appear in the fixtures), writing a tag whose local name is empty is
an error, and all output rendered before the failing token stays committed
in the writer (the tests compare the partial buffer even when `WriteTo`
errors). -/

def xmlEscapeChar (c : Char) : Str :=
  if c = '&' then "&amp;".data
  else if c = '<' then "&lt;".data
  else if c = '>' then "&gt;".data
  else if c = Char.ofNat 39 then "&#39;".data
  else if c = Char.ofNat 34 then "&#34;".data
  else [c]

def xmlEscape (s : Str) : Str := (s.map xmlEscapeChar).flatten

def renderAttr (a : XAttr) : Str :=
  " ".data
    ++ (if a.name.space ≠ [] then a.name.space ++ ":".data else [])
    ++ a.name.loc ++ "=".data ++ "\"".data ++ xmlEscape a.value ++ "\"".data

def renderTok : Tok → Option Str
  | .start n attrs =>
    if n.loc = [] then none
    else some ("<".data ++ n.loc
      ++ (if n.space ≠ [] then " xmlns=\"".data ++ n.space ++ "\"".data else [])
      ++ (attrs.map renderAttr).flatten ++ ">".data)
  | .endE n =>
    if n.loc = [] then none
    else some ("</".data ++ n.loc ++ ">".data)
  | .chardata d => some (xmlEscape d)
  | .comment d => some ("<!--".data ++ d ++ "-->".data)
  | .procinst t i => some ("<?".data ++ t ++ " ".data ++ i ++ "?>".data)
  | .directive d => some ("<!".data ++ d ++ ">".data)

/-- Serialize a token list: the bytes written and whether a write error
occurred; rendering stops at the first failing token, keeping the output
already produced. -/
def renderToks : List Tok → Str × Bool
  | [] => ([], false)
  | t :: rest =>
    match renderTok t with
    | none => ([], true)
    | some s =>
      match renderToks rest with
      | (out, e) => (s ++ out, e)

/-! ### The fixture token streams and their decode results -/

def jtoksEmptyArr : List JTok :=
  [.obj, .jstr "foo".data, .arr, .arrEnd, .objEnd]

def jtoksEmptyObj : List JTok :=
  [.obj, .jstr "foo".data, .obj, .objEnd, .objEnd]

def jtoksColon : List JTok :=
  [.obj, .jstr "a:b".data, .jnum "1".data, .jstr "a:".data, .jnum "2".data,
   .objEnd]

def jtoksNested : List JTok :=
  [.obj, .jstr "foo".data, .arr, .arr, .jnum "1".data, .arrEnd, .arrEnd,
   .objEnd]

def stC8obj : BState := ⟨[.elem ⟨[], "foo".data⟩ [] []], []⟩

def stC8colon : BState :=
  ⟨[.elem ⟨"a".data, "b".data⟩ [] [.text "1".data],
    .elem ⟨"a".data, []⟩ [] [.text "2".data]], []⟩

theorem colonIdx_append (s2 : Str) :
    ∀ (s1 : Str), (∀ c ∈ s1, c ≠ ':') →
      colonIdx (s1 ++ ':' :: s2) = some s1.length := by
  intro s1
  induction s1 with
  | nil => intro h; simp [colonIdx]
  | cons c rest ih =>
    intro h
    rw [List.cons_append, colonIdx,
      if_neg (h c (List.mem_cons_self c rest)),
      ih (fun x hx => h x (List.mem_cons_of_mem c hx))]
    simp

theorem jsTagToName_split (s1 s2 : Str) (hne : s1 ≠ [])
    (hnc : ∀ c ∈ s1, c ≠ ':') :
    jsTagToName (s1 ++ ':' :: s2) = ⟨s1, s2⟩ := by
  have ht : (s1 ++ ':' :: s2).take s1.length = s1 := by
    simp
  have hd : (s1 ++ ':' :: s2).drop (s1.length + 1) = s2 := by
    have h1 : s1 ++ ':' :: s2 = (s1 ++ [':']) ++ s2 := by simp
    have h2 : s1.length + 1 = (s1 ++ [':']).length := by simp
    rw [h1, h2, List.drop_left]
  simp only [jsTagToName, colonIdx_append s2 s1 hnc]
  rw [if_pos (List.length_pos.mpr hne), ht, hd]

/-- Claim C8 counterexample: the claim says decoding the JSON object with
keys "a:b" and "a:" yields a decode error; in fact the JSON decode runs to
completion without error, committing both pairs to the tree (the second as
an element with namespace "a" and empty local name) — the test fixture
expects no unmarshal error, and the failure only appears when the tree is
re-encoded. -/
theorem claim_C8_decode_error_counterexample :
    jsRun {} jtoksColon initB = .ok stC8colon := rfl

/-- Claim C8 (amended): the JSON object mapping "foo" to an empty array
decodes to an empty document and re-encodes to empty output; mapping "foo"
to an empty object yields exactly `<foo></foo>`; the object with keys
"a:b" and "a:" decodes *without* error and the subsequent XML encode fails
after emitting exactly `<b xmlns="a">1</b>`, the prior sibling's output
staying committed; a key is split on its first colon when the colon is not
the leading character; a nested array is rejected with a decode error. -/
theorem claim_C8_json_mapping :
    (jsRun {} jtoksEmptyArr initB = .ok initB ∧
      renderToks (marshalDoc false initB.root) = ([], false)) ∧
    (jsRun {} jtoksEmptyObj initB = .ok stC8obj ∧
      renderToks (marshalDoc false stC8obj.root)
        = ("<foo></foo>".data, false)) ∧
    (jsRun {} jtoksColon initB = .ok stC8colon ∧
      renderToks (marshalDoc false stC8colon.root)
        = ("<b xmlns=\"a\">1</b>".data, true)) ∧
    (∀ s1 s2 : Str, s1 ≠ [] → (∀ c ∈ s1, c ≠ ':') →
      jsTagToName (s1 ++ ':' :: s2) = ⟨s1, s2⟩) ∧
    jsRun {} jtoksNested initB = .error .nestedArrays := by
  refine ⟨⟨rfl, ?_⟩, ⟨rfl, ?_⟩, ⟨rfl, ?_⟩,
    fun s1 s2 hne hnc => jsTagToName_split s1 s2 hne hnc, rfl⟩
  · simp only [initB, marshalDoc, marshalForest]
    rfl
  · simp only [stC8obj, marshalDoc, marshalForest]
    rfl
  · simp only [stC8colon, marshalDoc, marshalForest]
    rfl

/-- Claim C8 witness: the key "a:b" splits into namespace "a" and local
name "b". -/
theorem claim_C8_json_mapping_witness :
    jsTagToName ("a".data ++ ':' :: "b".data) = ⟨"a".data, "b".data⟩ :=
  claim_C8_json_mapping.2.2.2.1 "a".data "b".data (by decide) (by decide)

/-! ## Claim C9: the schema-guided datastore Decoder (datastore/decoder.go)

The `datastore.Decoder` receives the same token events as the Builder but
validates each element against a YANG schema (`goyang`'s `*yang.Entry`)
before creating a node.  Nodes are attached immediately (`CreateElement`
then `AppendChild` at the cursor), so the document is modelled as the
`PNode` forest with the cursor as a child-index path; the
`yangDecoderStack` of restore closures becomes a stack of explicit frames
recording the captured schema, cursor and whether the closure also clears
the skip flag.  `Option.none` models aborted runs: the Go panic of popping
an empty stack, an invalid cursor path (unreachable from the decoder's own
cursor discipline) and the error returned for a `Directive` token. -/

/-- Model of `yang.EntryKind`, restricted to the kinds the decoder inspects. -/
inductive EKind where
  | leaf
  | directory
  | anyXML
  | anyData
  | choice
  | caseE
  | other
  deriving DecidableEq, Repr

/-- A `*yang.Entry`: its kind, its module namespace (`Namespace().Name`)
and its `Dir` child map, taken as an association list (Go map iteration
order is unspecified; the list order is one deterministic refinement of
it, and the fixture schemas give each name a unique resolution). -/
inductive SEntry where
  | mk (kind : EKind) (nsName : Str) (dir : List (Str × SEntry))

def SEntry.kind : SEntry → EKind
  | .mk k _ _ => k

def SEntry.nsName : SEntry → Str
  | .mk _ n _ => n

def SEntry.dir : SEntry → List (Str × SEntry)
  | .mk _ _ d => d

/-- Here `e.Dir[k]` map access. -/
def lookupDir : List (Str × SEntry) → Str → Option SEntry
  | [], _ => none
  | (k1, e) :: rest, k => if k1 = k then some e else lookupDir rest k

/-- Model of `isData`: leaf, directory, anyxml and anydata entries hold data. -/
def isData (e : SEntry) : Bool :=
  match e.kind with
  | .leaf => true
  | .directory => true
  | .anyXML => true
  | .anyData => true
  | _ => false

/-- The grandchild scan of `dataChild`: any child `ch` of the entry has its
own children scanned for case entries holding a data child of the wanted
name (this inner loop runs for every `ch`, whatever its kind). -/
def scanCases : List (Str × SEntry) → Str → Option SEntry
  | [], _ => none
  | (_, chch) :: rest, loc =>
    if chch.kind = .caseE then
      match lookupDir chch.dir loc with
      | some next => if isData next then some next else scanCases rest loc
      | none => scanCases rest loc
    else scanCases rest loc

/-- The fallback loop of `dataChild` over the entry's children: a choice or
case child is searched directly, and every child's own children are
searched one level deeper for case entries. -/
def scanChoice : List (Str × SEntry) → Str → Option SEntry
  | [], _ => none
  | (_, ch) :: rest, loc =>
    match
      (if ch.kind = .choice ∨ ch.kind = .caseE then
        match lookupDir ch.dir loc with
        | some next => if isData next then some next else none
        | none => none
      else none) with
    | some x => some x
    | none =>
      match scanCases ch.dir loc with
      | some x => some x
      | none => scanChoice rest loc

/-- Package-level `dataChild`: direct data child, else the two-level
choice/case scan. -/
def dataChild (e : SEntry) (loc : Str) : Option SEntry :=
  match lookupDir e.dir loc with
  | some next => if isData next then some next else scanChoice e.dir loc
  | none => scanChoice e.dir loc

/-- One YANG module of a processed `modules.Collection` (latest version):
its name, its namespace and its `yang.ToEntry` root. -/
structure SModule where
  name : Str
  nsName : Str
  root : SEntry

/-- Model of `Collection.RootEntry`: scan modules with the matching namespace for a
top-level entry of the local name. -/
def rootEntry : List SModule → XName → Option SEntry
  | [], _ => none
  | m :: rest, n =>
    if m.nsName = n.space then
      match lookupDir m.root.dir n.loc with
      | some e => some e
      | none => rootEntry rest n
    else rootEntry rest n

/-- Model of `Collection.ModuleEntry`: module lookup by module name. -/
def moduleEntry : List SModule → Str → Option SModule
  | [], _ => none
  | m :: rest, s => if m.name = s then some m else moduleEntry rest s

/-- The recoverable errors the decoder records (`errUnexpectedElementName`,
the rfc7951 unknown-module error, the namespace-mismatch error, and the
not-a-leaf error of `CharData`). -/
inductive DErr where
  | unexpectedElem (n : XName)
  | unknownModule (n : XName)
  | nsMismatch (n : XName) (want : Str)
  | notLeaf
  deriving DecidableEq, Repr

/-- The configured `nameLookup` (`Initialize`): rfc6020 is pass-through,
rfc7951 maps a module name in the Space field to the module namespace. -/
inductive Resolver where
  | rfc6020
  | rfc7951
  deriving DecidableEq, Repr

def childname (r : Resolver) (ms : List SModule) (n : XName) :
    Except DErr XName :=
  match r with
  | .rfc6020 => .ok n
  | .rfc7951 =>
    if n.space = [] then .ok n
    else
      match moduleEntry ms n.space with
      | some m => .ok ⟨m.nsName, n.loc⟩
      | none => .error (.unknownModule n)

/-- Model of `(un *Decoder).dataChild`: root lookup when no schema is set, child
lookup otherwise, then the namespace validation. -/
def decDataChild (ms : List SModule) (schema : Option SEntry) (n : XName) :
    Except DErr SEntry :=
  match
    (match schema with
      | none => rootEntry ms n
      | some sch => dataChild sch n.loc) with
  | none => .error (.unexpectedElem n)
  | some cand =>
    if n.space ≠ [] ∧ cand.nsName ≠ n.space then
      .error (.nsMismatch n cand.nsName)
    else .ok cand

/-- The full `StartElement` resolution pipeline: the name lookup followed
by the schema child lookup, yielding the resolved name and schema node. -/
def dResolve (r : Resolver) (ms : List SModule) (schema : Option SEntry)
    (n : XName) : Except DErr (XName × SEntry) :=
  match childname r ms n with
  | .error e => .error e
  | .ok name =>
    match decDataChild ms schema name with
    | .error e => .error e
    | .ok cand => .ok (name, cand)

/-- One restore closure of the `yangDecoderStack`: the schema and cursor it
captured, and whether it also clears the skip flag. -/
structure DFrame where
  schema : Option SEntry
  cur : List Nat
  resetSkip : Bool

/-- The decoder state: the document's children, the cursor as a child-index
path (empty path = the Document), the current schema node, the restore
stack, the skip flag and the recorded recoverable errors. -/
structure DState where
  doc : List PNode := []
  cur : List Nat := []
  schema : Option SEntry := none
  stack : List DFrame := []
  skip : Bool := false
  errs : List DErr := []

/-- Here `AppendChild` at the end of the child list addressed by the path,
returning the new forest and the appended child's index (`none` on a path
that does not address an element). -/
def appendAtPath : List PNode → List Nat → PNode → Option (List PNode × Nat)
  | f, [], n => some (f ++ [n], f.length)
  | f, i :: rest, n =>
    match f[i]? with
    | some (.elem nm attrs ch) =>
      match appendAtPath ch rest n with
      | some (ch1, k) => some (f.set i (.elem nm attrs ch1), k)
      | none => none
    | _ => none

/-- Model of `(un *Decoder).StartElement`: resolve, then either create and descend
(when not skipping), or push a plain restore frame (when skipping), or —
on a resolution error — record exactly that error, set skip, create
nothing and push a frame that also clears skip. -/
def dStart (r : Resolver) (ms : List SModule) (st : DState) (n : XName)
    (attrs : List XAttr) : Option DState :=
  match dResolve r ms st.schema n with
  | .ok (name, newSchema) =>
    if st.skip then
      some { st with stack := ⟨st.schema, st.cur, false⟩ :: st.stack }
    else
      match appendAtPath st.doc st.cur (.elem name attrs []) with
      | some (doc1, k) =>
        some { st with
                 doc := doc1, cur := st.cur ++ [k], schema := some newSchema,
                 stack := ⟨st.schema, st.cur, false⟩ :: st.stack }
      | none => none
  | .error e =>
    some { st with
             errs := st.errs ++ [e], skip := true,
             stack := ⟨st.schema, st.cur, true⟩ :: st.stack }

/-- Model of `(un *Decoder).EndElement`: pop and run the restore closure (popping an
empty stack is the Go panic, modelled as `none`). -/
def dEnd (st : DState) : Option DState :=
  match st.stack with
  | [] => none
  | f :: rest =>
    some { st with
             schema := f.schema, cur := f.cur,
             skip := if f.resetSkip then false else st.skip, stack := rest }

/-- Whether the current schema node is a leaf entry. -/
def isLeafSchema : Option SEntry → Bool
  | none => false
  | some e => decide (e.kind = .leaf)

/-- Model of `(un *Decoder).CharData`: a no-op while skipping; otherwise record a
not-a-leaf error when the schema is absent or not a leaf, append the text
at the cursor, and then run (without popping) the top restore closure,
which moves the cursor back to the element's parent. -/
def dChar (st : DState) (d : Str) : Option DState :=
  if st.skip then some st
  else
    let st1 := if isLeafSchema st.schema then st
      else { st with errs := st.errs ++ [.notLeaf] }
    match st1.stack with
    | [] => none
    | f :: rest =>
      match appendAtPath st1.doc st1.cur (.text d) with
      | some (doc1, _) =>
        some { st1 with
                 doc := doc1, schema := f.schema, cur := f.cur,
                 skip := if f.resetSkip then false else st1.skip,
                 stack := f :: rest }
      | none => none

/-- Feed a token stream to the decoder (`Comment` and `ProcInst` are
no-ops; `Directive` returns an error that aborts the unmarshal loop). -/
def dRun (r : Resolver) (ms : List SModule) : List Tok → DState → Option DState
  | [], st => some st
  | t :: rest, st =>
    match t with
    | .start n attrs => (dStart r ms st n attrs).bind (dRun r ms rest)
    | .endE _ => (dEnd st).bind (dRun r ms rest)
    | .chardata d => (dChar st d).bind (dRun r ms rest)
    | .comment _ => dRun r ms rest st
    | .procinst _ _ => dRun r ms rest st
    | .directive _ => none

/-- Here `(un Decoder).End` at end of stream: `io.EOF` means success only when
the cursor's parent is nil, i.e. the cursor is back at the document. -/
def dEndStream (st : DState) : Option DState :=
  if st.cur = [] then some st else none

/-! ### The module1 fixture (decoder_test): a schema expecting `host-name`
under `system` in namespace "urn:mod1", and the input document whose child
is named `hostname` instead. -/

def schHostName : SEntry := .mk .leaf "urn:mod1".data []

def schSystem : SEntry :=
  .mk .directory "urn:mod1".data [("host-name".data, schHostName)]

def mod1Root : SEntry :=
  .mk .directory "urn:mod1".data [("system".data, schSystem)]

def msC9 : List SModule := [⟨"module1".data, "urn:mod1".data, mod1Root⟩]

def c9toks : List Tok :=
  [.start ⟨"urn:mod1".data, "system".data⟩ [],
   .start ⟨"urn:mod1".data, "hostname".data⟩ [],
   .chardata "abc123".data,
   .endE ⟨"urn:mod1".data, "hostname".data⟩,
   .endE ⟨"urn:mod1".data, "system".data⟩]

def initD : DState := {}

def stC9final : DState :=
  { doc := [.elem ⟨"urn:mod1".data, "system".data⟩ [] []],
    errs := [.unexpectedElem ⟨"urn:mod1".data, "hostname".data⟩] }

def stC9w : DState :=
  { doc := [.elem ⟨"urn:mod1".data, "system".data⟩ [] []],
    cur := [0],
    schema := some schSystem,
    stack := [⟨none, [], false⟩] }

/-- Claim C9: when `StartElement` fails schema resolution with error `e`
(an unknown name, an unknown module or a namespace mismatch), the decoder
appends exactly that one error, creates no node (the document, cursor and
schema are untouched), sets the skip flag, and pushes a restore frame whose
matching `EndElement` restores the schema and cursor and clears skip — so
sibling and ancestor data survive.  Concretely, decoding
`<system xmlns="urn:mod1"><hostname>abc123</hostname></system>` against the
module1 schema (which expects `host-name`) runs to completion with exactly
one recorded error naming `hostname`, ends with the cursor back at the
document (so the decoder's `End` accepts the EOF), and the surviving tree
re-encodes to `<system xmlns="urn:mod1"></system>`. -/
theorem claim_C9_schema_skip :
    (∀ (r : Resolver) (ms : List SModule) (st : DState) (n : XName)
        (attrs : List XAttr) (e : DErr),
      dResolve r ms st.schema n = .error e →
      dStart r ms st n attrs = some
        { st with
            errs := st.errs ++ [e], skip := true,
            stack := ⟨st.schema, st.cur, true⟩ :: st.stack } ∧
      dEnd { st with
               errs := st.errs ++ [e], skip := true,
               stack := ⟨st.schema, st.cur, true⟩ :: st.stack }
        = some { st with errs := st.errs ++ [e], skip := false }) ∧
    dRun .rfc6020 msC9 c9toks initD = some stC9final ∧
    stC9final.errs = [.unexpectedElem ⟨"urn:mod1".data, "hostname".data⟩] ∧
    dEndStream stC9final = some stC9final ∧
    renderToks (marshalDoc false stC9final.doc)
      = ("<system xmlns=\"urn:mod1\"></system>".data, false) := by
  refine ⟨?_, rfl, rfl, rfl, ?_⟩
  · intro r ms st n attrs e hres
    constructor
    · rw [dStart, hres]
    · simp [dEnd]
  · simp only [stC9final, marshalDoc, marshalForest]
    rfl

/-- Claim C9 witness: the failing `<hostname>` start inside `<system>`
records its one error, skips, and its end element restores the cursor. -/
theorem claim_C9_schema_skip_witness :
    dStart .rfc6020 msC9 stC9w ⟨"urn:mod1".data, "hostname".data⟩ [] = some
      { stC9w with
          errs := stC9w.errs ++ [.unexpectedElem ⟨"urn:mod1".data, "hostname".data⟩],
          skip := true,
          stack := ⟨stC9w.schema, stC9w.cur, true⟩ :: stC9w.stack } :=
  (claim_C9_schema_skip.1 .rfc6020 msC9 stC9w
    ⟨"urn:mod1".data, "hostname".data⟩ []
    (.unexpectedElem ⟨"urn:mod1".data, "hostname".data⟩) (by rfl)).1

end Opr8

